import Mathlib

/-!
# softirq: the epoll echo server (`src/server.cpp`)

A shallow embedding of the server's reactor loop: the connection registry
(`std::map<int, ClientData> clients`), the three statistics counters, the
kernel's epoll interest set, the position of the process-wide `std::rand`
stream, and the sequence of system calls issued so far.

The kernel is an oracle: every dispatched readiness event carries the answers
the kernel gives to the system calls the handler issues (`accept`, `recv`,
`send`, `epoll_ctl`).  A handler whose loop asks for more answers than the
event carries has not returned yet, and evaluates to `none`.

The client's main loop (`src/client.cpp`) is embedded the same way, with the
values of the deadline test as a second oracle.
-/

namespace Softirq

/-! ## Configuration (`src/config.h`) -/

/-- `constexpr size_t BUFFER_SIZE = 16;` -/
def BUFFER_SIZE : Nat := 16

/-! ## The registry container

`std::map<int, T>` as a key-ordered association list. -/

/-- `m.find(k)`: the value stored under `k`, if any. -/
def mapFind {α : Type} (k : Int) : List (Int × α) → Option α
  | [] => none
  | (k', v) :: t => if k' = k then some v else mapFind k t

/-- `m.erase(k)`. -/
def mapErase {α : Type} (k : Int) : List (Int × α) → List (Int × α)
  | [] => []
  | (k', v) :: t => if k' = k then mapErase k t else (k', v) :: mapErase k t

/-- `m[k] = v`: insert at the key's place in the order, or overwrite. -/
def mapAssign {α : Type} (k : Int) (v : α) : List (Int × α) → List (Int × α)
  | [] => [(k, v)]
  | (k', v') :: t =>
    if k < k' then (k, v) :: (k', v') :: t
    else if k = k' then (k, v) :: t
    else (k', v') :: mapAssign k v t

/-- A write through a reference obtained from `m[k]`: replaces the value of an
existing entry and does nothing when the entry has been erased. -/
def mapStore {α : Type} (k : Int) (v : α) : List (Int × α) → List (Int × α)
  | [] => []
  | (k', v') :: t => if k' = k then (k', v) :: t else (k', v') :: mapStore k v t

/-! ## Data model -/

/-- `struct ClientData` (server.cpp:58-65).  Bytes are naturals below 256. -/
structure ClientData where
  buffer : List Nat
  bytesReceived : Nat
  bytesSent : Nat
  receivingData : Bool
  deriving DecidableEq, Repr

/-- `ClientData()`: a zero-filled buffer of `BUFFER_SIZE` bytes, no progress,
receiving. -/
def ClientData.fresh : ClientData :=
  { buffer := List.replicate BUFFER_SIZE 0, bytesReceived := 0, bytesSent := 0,
    receivingData := true }

/-- The two event masks the server registers client handles with:
`EPOLLIN | EPOLLET` and `EPOLLOUT | EPOLLET`. -/
inductive Interest where
  | read
  | write
  deriving DecidableEq, Repr

/-- System calls the server issues, with the arguments that matter and, for
the calls whose result the server inspects, the result. -/
inductive Sys where
  | accept (ret : Int)
  | epollAdd (fd : Int) (i : Interest) (ok : Bool)
  | epollMod (fd : Int) (i : Interest) (ok : Bool)
  | epollDel (fd : Int)
  | close (fd : Int)
  | recv (fd : Int) (off len : Nat) (ret : Int)
  | send (fd : Int) (off len : Nat) (ret : Int)
  deriving DecidableEq, Repr

/-- The kernel's answer to one `recv` or `send`: the return value, whether
`errno` is `EAGAIN`/`EWOULDBLOCK` (read only when the return value is `-1`),
and for `recv` the bytes placed at the given address. -/
structure IoRet where
  ret : Int
  again : Bool
  data : List Nat
  deriving DecidableEq, Repr

/-- One pending connection as the accept path sees it: the value `accept`
returns (`-1` on failure), and whether `setNonBlocking`, `setTcpNoDelay` and
`epoll_ctl(EPOLL_CTL_ADD)` succeed on it. -/
structure AcceptIn where
  fd : Int
  nonBlocking : Bool
  noDelay : Bool
  added : Bool
  deriving DecidableEq, Repr

/-- The state of `main` between two event dispatches, together with the
kernel-side epoll interest set, the number of `std::rand` calls made so far,
and the system calls issued so far (oldest first). -/
structure ServerState where
  clients : List (Int × ClientData)
  totalConnections : Int
  activeConnections : Int
  totalBytesProcessed : Int
  interest : List (Int × Interest)
  randCalls : Nat
  log : List Sys
  deriving DecidableEq, Repr

/-- The state when the main loop is entered (server.cpp:154-159). -/
def ServerState.init : ServerState :=
  { clients := [], totalConnections := 0, activeConnections := 0,
    totalBytesProcessed := 0, interest := [], randCalls := 0, log := [] }

/-- Record a system call. -/
def ServerState.sys (s : ServerState) (e : Sys) : ServerState :=
  { s with log := s.log ++ [e] }

/-! ## The transform (server.cpp:275-278) -/

/-- `for j in 0..BUFFER_SIZE: buffer[j] ^= (unsigned char)(rand() % 256)`,
where `r j` is the value the `j`-th `rand()` call of the loop returns. -/
def xorTransform (buffer : List Nat) (r : Nat → Nat) : List Nat :=
  (List.range BUFFER_SIZE).foldl
    (fun buf j => buf.set j ((buf.getD j 0 ^^^ (r j % 256)) % 256)) buffer

/-- The kernel copying received bytes into the buffer starting at `off`. -/
def writeAt (buf : List Nat) (off : Nat) : List Nat → List Nat
  | [] => buf
  | b :: bs => writeAt (buf.set off (b % 256)) (off + 1) bs

/-! ## Connection handler (server.cpp:222-346) -/

/-- The receive loop (server.cpp:237-270).  `c` is the record behind the
reference `client`; it is stored back into the registry when the loop is left.
After `clients.erase` the reference dangles and `c` holds the values the
record had when it was erased. -/
def recvLoop (fd : Int) : ServerState → ClientData → List IoRet →
    Option (ServerState × ClientData)
  | s, c, [] => if c.bytesReceived < BUFFER_SIZE then none else some (s, c)
  | s, c, r :: rest =>
    if c.bytesReceived < BUFFER_SIZE then
      let s1 := s.sys (.recv fd c.bytesReceived (BUFFER_SIZE - c.bytesReceived) r.ret)
      if 0 < r.ret then
        recvLoop fd s1
          { c with
            buffer := writeAt c.buffer c.bytesReceived (r.data.take r.ret.toNat)
            bytesReceived := c.bytesReceived + r.ret.toNat } rest
      else if r.ret = 0 then
        some ({ ((s1.sys (.epollDel fd)).sys (.close fd)) with
                interest := mapErase fd s.interest
                totalBytesProcessed := s.totalBytesProcessed + c.bytesReceived
                clients := mapErase fd s.clients
                activeConnections := s.activeConnections - 1 }, c)
      else if r.ret = -1 then
        if r.again then recvLoop fd s1 c rest
        else
          some ({ ((s1.sys (.epollDel fd)).sys (.close fd)) with
                  interest := mapErase fd s.interest
                  clients := mapErase fd s.clients
                  activeConnections := s.activeConnections - 1 }, c)
      else recvLoop fd s1 c rest
    else some (s, c)

/-- The receiving branch (server.cpp:236-296): the receive loop, then the
completion check with the transform and the switch to sending.  The first
`mapStore` carries what the loop wrote through the reference `client` into the
registry entry; it does nothing when the loop erased the entry, and the
completion check then reads the values the record had when it was erased. -/
def recvBranch (rng : Nat → Nat) (fd : Int) (s : ServerState) (c : ClientData)
    (io : List IoRet) (modOk : Bool) : Option (ServerState × ClientData) :=
  match recvLoop fd s c io with
  | none => none
  | some (s1, c1) =>
    let s1 := { s1 with clients := mapStore fd c1 s1.clients }
    if c1.bytesReceived = BUFFER_SIZE then
      let c2 : ClientData :=
        { c1 with
          buffer := xorTransform c1.buffer (fun j => rng (s1.randCalls + j))
          receivingData := false
          bytesSent := 0 }
      let s2 := ({ s1 with randCalls := s1.randCalls + BUFFER_SIZE
                           clients := mapStore fd c2 s1.clients }).sys
                  (.epollMod fd .write modOk)
      if modOk then some ({ s2 with interest := mapAssign fd .write s2.interest }, c2)
      else
        some ({ (s2.sys (.close fd)) with
                clients := mapErase fd s2.clients
                activeConnections := s2.activeConnections - 1 }, c2)
    else some (s1, c1)

/-- The send loop (server.cpp:299-322). -/
def sendLoop (fd : Int) : ServerState → ClientData → List IoRet →
    Option (ServerState × ClientData)
  | s, c, [] => if c.bytesSent < BUFFER_SIZE then none else some (s, c)
  | s, c, r :: rest =>
    if c.bytesSent < BUFFER_SIZE then
      let s1 := s.sys (.send fd c.bytesSent (BUFFER_SIZE - c.bytesSent) r.ret)
      if 0 < r.ret then
        sendLoop fd s1 { c with bytesSent := c.bytesSent + r.ret.toNat } rest
      else if r.ret = -1 then
        if r.again then sendLoop fd s1 c rest
        else
          some ({ ((s1.sys (.epollDel fd)).sys (.close fd)) with
                  interest := mapErase fd s.interest
                  clients := mapErase fd s.clients
                  activeConnections := s.activeConnections - 1 }, c)
      else sendLoop fd s1 c rest
    else some (s, c)

/-- The sending branch (server.cpp:298-345): the send loop, then the
completion check with the counter update and the switch to receiving. -/
def sendBranch (fd : Int) (s : ServerState) (c : ClientData)
    (io : List IoRet) (modOk : Bool) : Option (ServerState × ClientData) :=
  match sendLoop fd s c io with
  | none => none
  | some (s1, c1) =>
    let s1 := { s1 with clients := mapStore fd c1 s1.clients }
    if c1.bytesSent = BUFFER_SIZE then
      let c2 : ClientData := { c1 with receivingData := true, bytesReceived := 0 }
      let s2 := ({ s1 with totalBytesProcessed := s1.totalBytesProcessed + BUFFER_SIZE
                           clients := mapStore fd c2 s1.clients }).sys
                  (.epollMod fd .read modOk)
      if modOk then some ({ s2 with interest := mapAssign fd .read s2.interest }, c2)
      else
        some ({ (s2.sys (.close fd)) with
                clients := mapErase fd s2.clients
                activeConnections := s2.activeConnections - 1 }, c2)
    else some (s1, c1)

/-- One activation of the connection handler for the handle `fd`
(server.cpp:222-346).  `io` holds the kernel's answers to the `recv`/`send`
calls of the activation, `modOk` whether an `EPOLL_CTL_MOD` succeeds. -/
def handleClient (rng : Nat → Nat) (s : ServerState) (fd : Int)
    (io : List IoRet) (modOk : Bool) : Option ServerState :=
  match mapFind fd s.clients with
  | none =>
    some { ((s.sys (.epollDel fd)).sys (.close fd)) with
           interest := mapErase fd s.interest }
  | some c =>
    if c.receivingData then (recvBranch rng fd s c io modOk).map Prod.fst
    else (sendBranch fd s c io modOk).map Prod.fst

/-! ## Listener handler (server.cpp:180-220) -/

/-- What `accept` returns on the listening socket: the first pending
connection, or `-1` when none is pending. -/
def acceptResult : List AcceptIn → AcceptIn
  | [] => { fd := -1, nonBlocking := false, noDelay := false, added := false }
  | a :: _ => a

/-- One activation of the listener branch.  `pending` is the kernel's accept
queue when the event is dispatched; the result carries the connections still
pending when the branch is left. -/
def handleAccept (s : ServerState) (pending : List AcceptIn) :
    ServerState × List AcceptIn :=
  let a := acceptResult pending
  let s1 := s.sys (.accept a.fd)
  if a.fd = -1 then (s1, pending.tail)
  else if !a.nonBlocking || !a.noDelay then (s1.sys (.close a.fd), pending.tail)
  else
    let s2 := s1.sys (.epollAdd a.fd .read a.added)
    if !a.added then (s2.sys (.close a.fd), pending.tail)
    else
      ({ s2 with
         interest := mapAssign a.fd .read s2.interest
         clients := mapAssign a.fd ClientData.fresh s2.clients
         totalConnections := s2.totalConnections + 1
         activeConnections := s2.activeConnections + 1 }, pending.tail)

/-! ## Reactor loop (server.cpp:164-351) and shutdown (server.cpp:353-368) -/

/-- One readiness event together with the kernel's answers to the system
calls its handler issues. -/
structure Event where
  fd : Int
  pending : List AcceptIn
  io : List IoRet
  modOk : Bool
  deriving DecidableEq, Repr

/-- Dispatch of one event (server.cpp:178-346). -/
def dispatch (serverSocket : Int) (rng : Nat → Nat) (s : ServerState)
    (ev : Event) : Option ServerState :=
  if ev.fd = serverSocket then some (handleAccept s ev.pending).1
  else handleClient rng s ev.fd ev.io ev.modOk

/-- The clean-up after the main loop (server.cpp:359-366): close every handle
in the registry in key order, then the listening socket and the epoll
instance. -/
def shutdown (serverSocket epollFd : Int) (s : ServerState) : ServerState :=
  { s with
    log := s.log ++ s.clients.map (fun kv => Sys.close kv.1)
             ++ [.close serverSocket, .close epollFd] }

/-- States the server loop can be in between two event dispatches. -/
inductive Reachable (serverSocket : Int) (rng : Nat → Nat) : ServerState → Prop
  | init : Reachable serverSocket rng ServerState.init
  | step {s s' : ServerState} (ev : Event) :
      Reachable serverSocket rng s → dispatch serverSocket rng s ev = some s' →
      Reachable serverSocket rng s'

/-! ## Vocabulary for statements about the system-call log -/

/-- A `recv` call of the receive loop that did not end it: issued on `fd` at an
offset inside the buffer for the rest of the buffer, returning non-zero. -/
def RecvStep (fd : Int) : Sys → Prop
  | .recv fd' off len ret =>
    fd' = fd ∧ off < BUFFER_SIZE ∧ off + len = BUFFER_SIZE ∧ ret ≠ 0
  | _ => False

/-- A `send` call of the send loop that did not end it: issued on `fd` at an
offset inside the buffer for the rest of the buffer. -/
def SendStep (fd : Int) : Sys → Prop
  | .send fd' off len _ => fd' = fd ∧ off < BUFFER_SIZE ∧ off + len = BUFFER_SIZE
  | _ => False

/-- A `recv` or `send` call. -/
def IsTransfer : Sys → Prop
  | .recv _ _ _ _ => True
  | .send _ _ _ _ => True
  | _ => False

/-- A `recv`/`send` result allowed by the system call's contract: `-1`, `0`, or
a positive count no larger than the length asked for. -/
def WellBehaved : Sys → Prop
  | .recv _ _ len ret => ret = -1 ∨ ret = 0 ∨ (0 < ret ∧ ret ≤ len)
  | .send _ _ len ret => ret = -1 ∨ ret = 0 ∨ (0 < ret ∧ ret ≤ len)
  | _ => True

/-- A `recv`/`send` was issued at an offset inside the buffer for exactly the
rest of the buffer (so `BUFFER_SIZE - off` did not underflow), and what it
transferred ends inside the buffer. -/
def InsideBuffer : Sys → Prop
  | .recv _ off len ret =>
    off < BUFFER_SIZE ∧ off + len = BUFFER_SIZE ∧ (0 < ret → (off : Int) + ret ≤ BUFFER_SIZE)
  | .send _ off len ret =>
    off < BUFFER_SIZE ∧ off + len = BUFFER_SIZE ∧ (0 < ret → (off : Int) + ret ≤ BUFFER_SIZE)
  | _ => True

/-- Every `close(x)` in the sequence of calls comes directly after an
`epoll_ctl(EPOLL_CTL_DEL, x)`. -/
def DelThenClose : List Sys → Prop
  | [] => True
  | .close _ :: _ => False
  | .epollDel x :: .close y :: t => x = y ∧ DelThenClose t
  | _ :: t => DelThenClose t

/-- 1 for the call that only the send-completion block issues
(`EPOLL_CTL_MOD` to read interest, server.cpp:338), 0 for any other call. -/
def echoedWeight : Sys → Nat
  | .epollMod _ .read _ => 1
  | _ => 0

/-- Number of frames whose Sending phase ran to completion, read off the log. -/
def framesEchoed (log : List Sys) : Nat := (log.map echoedWeight).sum

/-- For a `recv` that returned 0 (peer close), the offset it was issued at,
which is the number of bytes of the frame in progress; 0 for any other call. -/
def unfinishedWeight : Sys → Nat
  | .recv _ off _ ret => if ret = 0 then off else 0
  | _ => 0

/-- Bytes of unfinished frames held by connections when their peer closed. -/
def unfinishedBytesAtClose (log : List Sys) : Nat := (log.map unfinishedWeight).sum

/-- The interest the phase of a record calls for: read interest while
receiving, write interest while sending. -/
def phaseInterest (c : ClientData) : Interest :=
  if c.receivingData then .read else .write

/-- Every record of the registry is registered with the interest of its phase. -/
def InterestMatchesPhase (s : ServerState) : Prop :=
  ∀ fd c, mapFind fd s.clients = some c → mapFind fd s.interest = some (phaseInterest c)

/-- Byte-wise XOR of a frame with the bytes `r j % 256` of the generator
outputs `r 0, r 1, ...`. -/
def xorWithDraws (frame : List Nat) (r : Nat → Nat) : List Nat :=
  List.zipWith (fun b j => b ^^^ (r j % 256)) frame (List.range frame.length)

/-! ## Concrete runs used as examples -/

/-- A server with one freshly accepted connection on handle 5. -/
def oneClient : ServerState :=
  (handleAccept ServerState.init
    [{ fd := 5, nonBlocking := true, noDelay := true, added := true }]).1

/-- The answer "would block": `-1` with `errno = EAGAIN`. -/
def wouldBlock : IoRet := { ret := -1, again := true, data := [] }

/-- A `recv` answer delivering the given bytes. -/
def delivers (bytes : List Nat) : IoRet :=
  { ret := bytes.length, again := false, data := bytes }

/-- The answer of a `recv` on a connection the peer has closed: `0`. -/
def peerClosed : IoRet := { ret := 0, again := false, data := [] }

/-- The listener event of a server whose listening socket is handle 3, with one
connection pending that is accepted as handle 5. -/
def acceptFive : Event :=
  { fd := 3, pending := [{ fd := 5, nonBlocking := true, noDelay := true, added := true }],
    io := [], modOk := true }

/-- A readiness event on handle 5 during which 8 bytes arrive and the peer is
then found closed. -/
def halfFrameThenClose : Event :=
  { fd := 5, pending := [], io := [delivers (List.replicate 8 1), peerClosed], modOk := true }

/-- The state after `acceptFive` and `halfFrameThenClose`. -/
def afterHalfFrameClose : ServerState :=
  { clients := [], totalConnections := 1, activeConnections := 0, totalBytesProcessed := 8,
    interest := [], randCalls := 0,
    log := [.accept 5, .epollAdd 5 .read true, .recv 5 0 16 8, .recv 5 8 8 0,
            .epollDel 5, .close 5] }

/-- The state after a complete frame arrived on handle 5 of `oneClient` and the
`EPOLL_CTL_MOD` to write interest failed. -/
def afterFailedModify : ServerState :=
  { clients := [], totalConnections := 1, activeConnections := 0, totalBytesProcessed := 0,
    interest := [(5, .read)], randCalls := 16,
    log := [.accept 5, .epollAdd 5 .read true, .recv 5 0 16 16,
            .epollMod 5 .write false, .close 5] }

/-- A readiness event on handle 5 during which a whole frame of sevens arrives;
the following `EPOLL_CTL_MOD` succeeds. -/
def fullFrame : Event :=
  { fd := 5, pending := [], io := [delivers (List.replicate 16 7)], modOk := true }

/-- The state after `acceptFive` and `fullFrame` when every `rand()` is 0. -/
def afterFullFrame : ServerState :=
  { clients := [(5, { buffer := List.replicate 16 7, bytesReceived := 16, bytesSent := 0,
                      receivingData := false })],
    totalConnections := 1, activeConnections := 1, totalBytesProcessed := 0,
    interest := [(5, .write)], randCalls := 16,
    log := [.accept 5, .epollAdd 5 .read true, .recv 5 0 16 16, .epollMod 5 .write true] }

/-- The answers to the `send` calls of an activation that writes the frame in
two pieces of 10 and 6 bytes with a would-block in between. -/
def twoPieceSend : List IoRet :=
  [{ ret := 10, again := false, data := [] }, wouldBlock,
   { ret := 6, again := false, data := [] }]

/-- The record of handle 5 in `afterFullFrame`. -/
def sendingRecord : ClientData :=
  { buffer := List.replicate 16 7, bytesReceived := 16, bytesSent := 0,
    receivingData := false }

/-- The record of handle 5 when the send loop has got the answers
`twoPieceSend`. -/
def sentRecord : ClientData :=
  { buffer := List.replicate 16 7, bytesReceived := 16, bytesSent := 16,
    receivingData := false }

/-- The server state when the send loop has got the answers `twoPieceSend`. -/
def afterSendLoop : ServerState :=
  { afterFullFrame with
    log := afterFullFrame.log ++ [.send 5 0 16 10, .send 5 10 6 (-1), .send 5 10 6 6] }

/-- Two connections waiting in the accept queue, which `accept` would return as
handles 5 and 6; every set-up call on them succeeds. -/
def twoPending : List AcceptIn :=
  [{ fd := 5, nonBlocking := true, noDelay := true, added := true },
   { fd := 6, nonBlocking := true, noDelay := true, added := true }]

/-! ## Reachability when accepted handles are fresh -/

/-- States the server loop can be in when `accept` only ever returns handles
that are not keys of the registry at that moment. -/
inductive ReachableFresh (serverSocket : Int) (rng : Nat → Nat) : ServerState → Prop
  | init : ReachableFresh serverSocket rng ServerState.init
  | step {s s' : ServerState} (ev : Event) :
      ReachableFresh serverSocket rng s →
      (ev.fd = serverSocket → mapFind (acceptResult ev.pending).fd s.clients = none) →
      dispatch serverSocket rng s ev = some s' →
      ReachableFresh serverSocket rng s'

/-- The registry holds each key once, and `activeConnections` counts its
records and has not overtaken `totalConnections`. -/
def ActiveCountsRegistry (s : ServerState) : Prop :=
  (s.clients.map Prod.fst).Nodup ∧ s.activeConnections = s.clients.length ∧
    s.activeConnections ≤ s.totalConnections

/-! ## The client (`src/client.cpp`, lines 94-173) -/

/-- The variables of the client's `main` that live across the main loop: the
frame buffer, the two frame counters, the number of values drawn from the
random distribution so far, and the system calls issued so far. -/
structure ClientState where
  buffer : List Nat
  sendCount : Int
  recvCount : Int
  genCalls : Nat
  log : List Sys
  deriving DecidableEq, Repr

/-- The state when the main loop is entered (client.cpp:95-105); the stack
buffer starts with whatever it holds. -/
def ClientState.init (buffer : List Nat) : ClientState :=
  { buffer := buffer, sendCount := 0, recvCount := 0, genCalls := 0, log := [] }

/-- `for i in 0..BUFFER_SIZE: buffer[i] = (unsigned char) distrib(fast_gen)`
(client.cpp:109-111), where `gen n` is the `n`-th value the distribution
yields. -/
def fillBuffer (gen : Nat → Nat) (k : Nat) (buffer : List Nat) : List Nat :=
  (List.range BUFFER_SIZE).foldl (fun buf i => buf.set i (gen (k + i) % 256)) buffer

/-- The send loop (client.cpp:114-130), entered with `totalSent`.  The result
carries `some totalSent` when the loop is left through its condition and
`none` when it is left through `close(clientSocket); return 1;`, together with
the answers not yet used. -/
def clientSendLoop (fd : Int) : ClientState → Nat → List IoRet →
    Option (ClientState × Option Nat × List IoRet)
  | st, totalSent, [] =>
    if totalSent < BUFFER_SIZE then none else some (st, some totalSent, [])
  | st, totalSent, r :: rest =>
    if totalSent < BUFFER_SIZE then
      let st1 := { st with
        log := st.log ++ [.send fd totalSent (BUFFER_SIZE - totalSent) r.ret] }
      if 0 < r.ret then clientSendLoop fd st1 (totalSent + r.ret.toNat) rest
      else if r.ret = -1 then
        if r.again then clientSendLoop fd st1 totalSent rest
        else some ({ st1 with log := st1.log ++ [.close fd] }, none, rest)
      else clientSendLoop fd st1 totalSent rest
    else some (st, some totalSent, r :: rest)

/-- The receive loop (client.cpp:134-154), entered with `totalReceived`; the
result is read as for `clientSendLoop`. -/
def clientRecvLoop (fd : Int) : ClientState → Nat → List IoRet →
    Option (ClientState × Option Nat × List IoRet)
  | st, totalReceived, [] =>
    if totalReceived < BUFFER_SIZE then none else some (st, some totalReceived, [])
  | st, totalReceived, r :: rest =>
    if totalReceived < BUFFER_SIZE then
      let st1 := { st with
        log := st.log ++ [.recv fd totalReceived (BUFFER_SIZE - totalReceived) r.ret] }
      if 0 < r.ret then
        clientRecvLoop fd
          { st1 with buffer := writeAt st.buffer totalReceived (r.data.take r.ret.toNat) }
          (totalReceived + r.ret.toNat) rest
      else if r.ret = 0 then some ({ st1 with log := st1.log ++ [.close fd] }, none, rest)
      else if r.ret = -1 then
        if r.again then clientRecvLoop fd st1 totalReceived rest
        else some ({ st1 with log := st1.log ++ [.close fd] }, none, rest)
      else clientRecvLoop fd st1 totalReceived rest
    else some (st, some totalReceived, r :: rest)

/-- The body of the main loop (client.cpp:108-155): fill the buffer, send the
frame, count it, receive the reply, count it.  The flag is `true` when the
body ran to its end and `false` when it left `main` with `return 1`. -/
def clientFrame (fd : Int) (gen : Nat → Nat) (st : ClientState) (io : List IoRet) :
    Option (ClientState × Bool × List IoRet) :=
  let st1 := { st with buffer := fillBuffer gen st.genCalls st.buffer
                       genCalls := st.genCalls + BUFFER_SIZE }
  match clientSendLoop fd st1 0 io with
  | none => none
  | some (st2, none, io2) => some (st2, false, io2)
  | some (st2, some _, io2) =>
    match clientRecvLoop fd { st2 with sendCount := st2.sendCount + 1 } 0 io2 with
    | none => none
    | some (st3, none, io3) => some (st3, false, io3)
    | some (st3, some _, io3) =>
      some ({ st3 with recvCount := st3.recvCount + 1 }, true, io3)

/-- The main loop and the exit of `main` (client.cpp:107-172).  `clock` holds
the successive values of `steady_clock::now() < endTime`; the result is the
final state and the exit code.  A run that needs more clock values or more
`send`/`recv` answers than given has not ended and evaluates to `none`. -/
def clientLoop (fd : Int) (gen : Nat → Nat) : List Bool → ClientState → List IoRet →
    Option (ClientState × Int)
  | [], _, _ => none
  | false :: _, st, _ => some ({ st with log := st.log ++ [.close fd] }, 0)
  | true :: clock, st, io =>
    match clientFrame fd gen st io with
    | none => none
    | some (st1, false, _) => some (st1, 1)
    | some (st1, true, io1) => clientLoop fd gen clock st1 io1

/-- Bytes a `send` call handed over: its return value when positive. -/
def sentWeight : Sys → Nat
  | .send _ _ _ ret => ret.toNat
  | _ => 0

/-- Total number of bytes handed over by the `send` calls of a log. -/
def sentBytes (log : List Sys) : Nat := (log.map sentWeight).sum

/-- A transfer that makes the client give up: a `send` or `recv` returning
`-1`, or a `recv` returning 0. -/
def FatalTransfer (fd : Int) : Sys → Prop
  | .send fd' _ _ ret => fd' = fd ∧ ret = -1
  | .recv fd' _ _ ret => fd' = fd ∧ (ret = -1 ∨ ret = 0)
  | _ => False

/-- The answers to the `send`/`recv` calls of a client run of two frames: the
first frame goes out in one piece and its reply arrives after a would-block,
the second goes out in pieces of 10 and 6 bytes and its reply arrives in
pieces of 3 and 13 bytes. -/
def twoFrameAnswers : List IoRet :=
  [{ ret := 16, again := false, data := [] }, wouldBlock, delivers (List.range 16),
   { ret := 10, again := false, data := [] }, { ret := 6, again := false, data := [] },
   delivers [1, 2, 3], delivers (List.replicate 13 9)]

/-- The state in which the client run on `twoFrameAnswers` ends when the
deadline passes after the second frame. -/
def afterTwoFrames : ClientState :=
  { buffer := [1, 2, 3, 9, 9, 9, 9, 9, 9, 9, 9, 9, 9, 9, 9, 9], sendCount := 2,
    recvCount := 2, genCalls := 32,
    log := [.send 9 0 16 16, .recv 9 0 16 (-1), .recv 9 0 16 16, .send 9 0 16 10,
            .send 9 10 6 6, .recv 9 0 16 3, .recv 9 3 13 13, .close 9] }

/-! ## Bytes handed to `send` -/

/-- Starting with `off` bytes of the frame sent, every `send` of the list is
issued on `fd` at the number of bytes sent so far, for the rest of the buffer,
and moves that number on by the count it returns when positive; `fin` is the
number of bytes sent after the last call of the list.  Calls other than `send`
are passed over. -/
def SendsFrom (fd : Int) : Nat → List Sys → Nat → Prop
  | off, [], fin => fin = off
  | off, .send fd' o len ret :: t, fin =>
    fd' = fd ∧ o = off ∧ off < BUFFER_SIZE ∧ len = BUFFER_SIZE - off ∧
      SendsFrom fd (off + ret.toNat) t fin
  | off, _ :: t, fin => SendsFrom fd off t fin

/-- A record in the Sending phase either has sent nothing yet or is past the
end of the buffer. -/
def SendingStartsAtZero (s : ServerState) : Prop :=
  ∀ fd c, mapFind fd s.clients = some c → c.receivingData = false →
    c.bytesSent = 0 ∨ BUFFER_SIZE < c.bytesSent

/-! ## Registry lemmas -/

section MapLemmas
variable {α : Type}

theorem mapFind_erase_self (k : Int) (l : List (Int × α)) :
    mapFind k (mapErase k l) = none := by
  induction l with
  | nil => rfl
  | cons kv t ih =>
    obtain ⟨k', v⟩ := kv
    by_cases hk : k' = k <;> simp [mapErase, mapFind, hk, ih]

theorem mapFind_erase_ne {k j : Int} (hj : j ≠ k) (l : List (Int × α)) :
    mapFind j (mapErase k l) = mapFind j l := by
  induction l with
  | nil => rfl
  | cons kv t ih =>
    obtain ⟨k', v⟩ := kv
    by_cases hk : k' = k
    · subst hk
      have hkj : ¬ k' = j := fun h => hj h.symm
      simp [mapErase, mapFind, hkj, ih]
    · by_cases hkj : k' = j
      · subst hkj
        simp [mapErase, mapFind, hk]
      · simp [mapErase, mapFind, hk, hkj, ih]

theorem mapFind_assign_self (k : Int) (v : α) (l : List (Int × α)) :
    mapFind k (mapAssign k v l) = some v := by
  induction l with
  | nil => simp [mapAssign, mapFind]
  | cons kv t ih =>
    obtain ⟨k', v'⟩ := kv
    by_cases h1 : k < k'
    · simp [mapAssign, mapFind, h1]
    · by_cases h2 : k = k'
      · simp [mapAssign, mapFind, h1, h2]
      · have h3 : ¬ k' = k := fun h => h2 h.symm
        simp [mapAssign, mapFind, h1, h2, h3, ih]

theorem mapFind_assign_ne {k j : Int} (hj : j ≠ k) (v : α) (l : List (Int × α)) :
    mapFind j (mapAssign k v l) = mapFind j l := by
  have hkj : ¬ k = j := fun h => hj h.symm
  induction l with
  | nil => simp [mapAssign, mapFind, hkj]
  | cons kv t ih =>
    obtain ⟨k', v'⟩ := kv
    by_cases h1 : k < k'
    · simp [mapAssign, mapFind, h1, hkj]
    · by_cases h2 : k = k'
      · subst h2
        simp [mapAssign, mapFind, hkj]
      · by_cases h3 : k' = j
        · subst h3
          simp [mapAssign, mapFind, h1, h2]
        · simp [mapAssign, mapFind, h1, h2, h3, ih]

theorem mapFind_store_ne {k j : Int} (hj : j ≠ k) (v : α) (l : List (Int × α)) :
    mapFind j (mapStore k v l) = mapFind j l := by
  induction l with
  | nil => rfl
  | cons kv t ih =>
    obtain ⟨k', v'⟩ := kv
    by_cases hk : k' = k
    · subst hk
      have : ¬ k' = j := fun h => hj h.symm
      simp [mapStore, mapFind, this]
    · by_cases h3 : k' = j
      · subst h3
        simp [mapStore, mapFind, hk]
      · simp [mapStore, mapFind, hk, h3, ih]

theorem mapFind_store_self (k : Int) (v : α) (l : List (Int × α)) :
    mapFind k (mapStore k v l) = (mapFind k l).map (fun _ => v) := by
  induction l with
  | nil => rfl
  | cons kv t ih =>
    obtain ⟨k', v'⟩ := kv
    by_cases hk : k' = k <;> simp [mapStore, mapFind, hk, ih]

theorem mapStore_store (k : Int) (v w : α) (l : List (Int × α)) :
    mapStore k w (mapStore k v l) = mapStore k w l := by
  induction l with
  | nil => rfl
  | cons kv t ih =>
    obtain ⟨k', v'⟩ := kv
    by_cases hk : k' = k <;> simp [mapStore, hk, ih]

theorem mapStore_of_find {k : Int} {v : α} {l : List (Int × α)}
    (h : mapFind k l = some v) : mapStore k v l = l := by
  induction l with
  | nil => rfl
  | cons kv t ih =>
    obtain ⟨k', v'⟩ := kv
    by_cases hk : k' = k
    · simp [mapFind, hk] at h
      simp [mapStore, hk, h]
    · simp [mapFind, hk] at h
      simp [mapStore, hk, ih h]

theorem mapStore_erase (k : Int) (v : α) (l : List (Int × α)) :
    mapStore k v (mapErase k l) = mapErase k l := by
  induction l with
  | nil => rfl
  | cons kv t ih =>
    obtain ⟨k', v'⟩ := kv
    by_cases hk : k' = k <;> simp [mapStore, mapErase, hk, ih]

theorem mapErase_store (k : Int) (v : α) (l : List (Int × α)) :
    mapErase k (mapStore k v l) = mapErase k l := by
  induction l with
  | nil => rfl
  | cons kv t ih =>
    obtain ⟨k', v'⟩ := kv
    by_cases hk : k' = k <;> simp [mapStore, mapErase, hk, ih]

end MapLemmas

/-! ## The two loops and the two branches -/

@[simp] theorem sys_log (s : ServerState) (e : Sys) : (s.sys e).log = s.log ++ [e] := rfl
@[simp] theorem sys_clients (s : ServerState) (e : Sys) : (s.sys e).clients = s.clients := rfl
@[simp] theorem sys_interest (s : ServerState) (e : Sys) : (s.sys e).interest = s.interest := rfl
@[simp] theorem sys_totalConnections (s : ServerState) (e : Sys) :
    (s.sys e).totalConnections = s.totalConnections := rfl
@[simp] theorem sys_activeConnections (s : ServerState) (e : Sys) :
    (s.sys e).activeConnections = s.activeConnections := rfl
@[simp] theorem sys_totalBytesProcessed (s : ServerState) (e : Sys) :
    (s.sys e).totalBytesProcessed = s.totalBytesProcessed := rfl
@[simp] theorem sys_randCalls (s : ServerState) (e : Sys) : (s.sys e).randCalls = s.randCalls := rfl

theorem length_writeAt (buf : List Nat) (off : Nat) (bs : List Nat) :
    (writeAt buf off bs).length = buf.length := by
  induction bs generalizing buf off with
  | nil => rfl
  | cons b bs ih => simp [writeAt, ih]

theorem recvLoop_cases {fd : Int} {io : List IoRet} {s s' : ServerState} {c c' : ClientData}
    (h : recvLoop fd s c io = some (s', c')) :
    c'.bytesSent = c.bytesSent ∧ c'.receivingData = c.receivingData ∧
    c'.buffer.length = c.buffer.length ∧
    ∃ evs : List Sys, (∀ e ∈ evs, RecvStep fd e) ∧
      ((∀ e ∈ evs, WellBehaved e) → c.bytesReceived ≤ BUFFER_SIZE →
        c'.bytesReceived ≤ BUFFER_SIZE) ∧
      ((BUFFER_SIZE ≤ c'.bytesReceived ∧ s' = { s with log := s.log ++ evs }) ∨
       (c'.bytesReceived < BUFFER_SIZE ∧
        s' = { s with
               log := s.log ++ evs ++
                 [.recv fd c'.bytesReceived (BUFFER_SIZE - c'.bytesReceived) 0,
                  .epollDel fd, .close fd]
               interest := mapErase fd s.interest
               totalBytesProcessed := s.totalBytesProcessed + c'.bytesReceived
               clients := mapErase fd s.clients
               activeConnections := s.activeConnections - 1 }) ∨
       (c'.bytesReceived < BUFFER_SIZE ∧
        s' = { s with
               log := s.log ++ evs ++
                 [.recv fd c'.bytesReceived (BUFFER_SIZE - c'.bytesReceived) (-1),
                  .epollDel fd, .close fd]
               interest := mapErase fd s.interest
               clients := mapErase fd s.clients
               activeConnections := s.activeConnections - 1 })) := by
  induction io generalizing s c with
  | nil =>
    simp only [recvLoop] at h
    split at h
    · exact absurd h (by simp)
    · rename_i hlt
      simp only [Option.some.injEq, Prod.mk.injEq] at h
      obtain ⟨rfl, rfl⟩ := h
      exact ⟨rfl, rfl, rfl, [], by simp, fun _ h => h, Or.inl ⟨Nat.le_of_not_lt hlt, by simp⟩⟩
  | cons r rest ih =>
    simp only [recvLoop] at h
    split at h
    · rename_i hlt
      have hstep : ∀ ret : Int, ret ≠ 0 →
          RecvStep fd (.recv fd c.bytesReceived (BUFFER_SIZE - c.bytesReceived) ret) :=
        fun ret hr => ⟨rfl, hlt, by omega, hr⟩
      split at h
      · rename_i hpos
        obtain ⟨h1, h2, h3, evs, hevs, hwb, hc⟩ := ih h
        refine ⟨h1, h2, by simpa [length_writeAt] using h3,
          .recv fd c.bytesReceived (BUFFER_SIZE - c.bytesReceived) r.ret :: evs, ?_, ?_, ?_⟩
        · intro e he
          rcases List.mem_cons.1 he with rfl | he
          · exact hstep _ (by omega)
          · exact hevs e he
        · intro hw hb
          refine hwb (fun e he => hw e (List.mem_cons_of_mem _ he)) ?_
          have h0 := hw _ (List.mem_cons_self _ _)
          simp only [WellBehaved] at h0
          simp only
          omega
        · rcases hc with ⟨hb, rfl⟩ | ⟨hb, rfl⟩ | ⟨hb, rfl⟩
          · exact Or.inl ⟨hb, by simp [ServerState.sys]⟩
          · exact Or.inr (Or.inl ⟨hb, by simp [ServerState.sys]⟩)
          · exact Or.inr (Or.inr ⟨hb, by simp [ServerState.sys]⟩)
      · split at h
        · rename_i hz
          simp only [Option.some.injEq, Prod.mk.injEq] at h
          obtain ⟨rfl, rfl⟩ := h
          exact ⟨rfl, rfl, rfl, [], by simp, fun _ h => h,
            Or.inr (Or.inl ⟨hlt, by simp [ServerState.sys, hz]⟩)⟩
        · split at h
          · rename_i hm
            split at h
            · obtain ⟨h1, h2, h3, evs, hevs, hwb, hc⟩ := ih h
              refine ⟨h1, h2, h3,
                .recv fd c.bytesReceived (BUFFER_SIZE - c.bytesReceived) r.ret :: evs, ?_,
                fun hw hb => hwb (fun e he => hw e (List.mem_cons_of_mem _ he)) hb, ?_⟩
              · intro e he
                rcases List.mem_cons.1 he with rfl | he
                · exact hstep _ (by omega)
                · exact hevs e he
              · rcases hc with ⟨hb, rfl⟩ | ⟨hb, rfl⟩ | ⟨hb, rfl⟩
                · exact Or.inl ⟨hb, by simp [ServerState.sys]⟩
                · exact Or.inr (Or.inl ⟨hb, by simp [ServerState.sys]⟩)
                · exact Or.inr (Or.inr ⟨hb, by simp [ServerState.sys]⟩)
            · simp only [Option.some.injEq, Prod.mk.injEq] at h
              obtain ⟨rfl, rfl⟩ := h
              exact ⟨rfl, rfl, rfl, [], by simp, fun _ h => h,
                Or.inr (Or.inr ⟨hlt, by simp [ServerState.sys, hm]⟩)⟩
          · rename_i hm
            obtain ⟨h1, h2, h3, evs, hevs, hwb, hc⟩ := ih h
            refine ⟨h1, h2, h3,
              .recv fd c.bytesReceived (BUFFER_SIZE - c.bytesReceived) r.ret :: evs, ?_,
              fun hw hb => hwb (fun e he => hw e (List.mem_cons_of_mem _ he)) hb, ?_⟩
            · intro e he
              rcases List.mem_cons.1 he with rfl | he
              · exact hstep _ (by omega)
              · exact hevs e he
            · rcases hc with ⟨hb, rfl⟩ | ⟨hb, rfl⟩ | ⟨hb, rfl⟩
              · exact Or.inl ⟨hb, by simp [ServerState.sys]⟩
              · exact Or.inr (Or.inl ⟨hb, by simp [ServerState.sys]⟩)
              · exact Or.inr (Or.inr ⟨hb, by simp [ServerState.sys]⟩)
    · rename_i hlt
      simp only [Option.some.injEq, Prod.mk.injEq] at h
      obtain ⟨rfl, rfl⟩ := h
      exact ⟨rfl, rfl, rfl, [], by simp, fun _ h => h, Or.inl ⟨Nat.le_of_not_lt hlt, by simp⟩⟩

theorem sendLoop_cases {fd : Int} {io : List IoRet} {s s' : ServerState} {c c' : ClientData}
    (h : sendLoop fd s c io = some (s', c')) :
    c'.bytesReceived = c.bytesReceived ∧ c'.receivingData = c.receivingData ∧
    c'.buffer = c.buffer ∧
    ∃ evs : List Sys, (∀ e ∈ evs, SendStep fd e) ∧
      ((∀ e ∈ evs, WellBehaved e) → c.bytesSent ≤ BUFFER_SIZE →
        c'.bytesSent ≤ BUFFER_SIZE) ∧
      ((BUFFER_SIZE ≤ c'.bytesSent ∧ s' = { s with log := s.log ++ evs }) ∨
       (c'.bytesSent < BUFFER_SIZE ∧
        s' = { s with
               log := s.log ++ evs ++
                 [.send fd c'.bytesSent (BUFFER_SIZE - c'.bytesSent) (-1),
                  .epollDel fd, .close fd]
               interest := mapErase fd s.interest
               clients := mapErase fd s.clients
               activeConnections := s.activeConnections - 1 })) := by
  induction io generalizing s c with
  | nil =>
    simp only [sendLoop] at h
    split at h
    · exact absurd h (by simp)
    · rename_i hlt
      simp only [Option.some.injEq, Prod.mk.injEq] at h
      obtain ⟨rfl, rfl⟩ := h
      exact ⟨rfl, rfl, rfl, [], by simp, fun _ h => h, Or.inl ⟨Nat.le_of_not_lt hlt, by simp⟩⟩
  | cons r rest ih =>
    simp only [sendLoop] at h
    split at h
    · rename_i hlt
      have hstep : ∀ ret : Int,
          SendStep fd (.send fd c.bytesSent (BUFFER_SIZE - c.bytesSent) ret) :=
        fun ret => ⟨rfl, hlt, by omega⟩
      have hmem : ∀ evs : List Sys, (∀ e ∈ evs, SendStep fd e) →
          ∀ e ∈ Sys.send fd c.bytesSent (BUFFER_SIZE - c.bytesSent) r.ret :: evs,
            SendStep fd e := by
        intro evs hevs e he
        rcases List.mem_cons.1 he with rfl | he
        · exact hstep _
        · exact hevs e he
      split at h
      · rename_i hpos
        obtain ⟨h1, h2, h3, evs, hevs, hwb, hc⟩ := ih h
        refine ⟨h1, h2, h3,
          .send fd c.bytesSent (BUFFER_SIZE - c.bytesSent) r.ret :: evs, hmem evs hevs, ?_, ?_⟩
        · intro hw hb
          refine hwb (fun e he => hw e (List.mem_cons_of_mem _ he)) ?_
          have h0 := hw _ (List.mem_cons_self _ _)
          simp only [WellBehaved] at h0
          simp only
          omega
        · rcases hc with ⟨hb, rfl⟩ | ⟨hb, rfl⟩
          · exact Or.inl ⟨hb, by simp [ServerState.sys]⟩
          · exact Or.inr ⟨hb, by simp [ServerState.sys]⟩
      · split at h
        · rename_i hm
          split at h
          · obtain ⟨h1, h2, h3, evs, hevs, hwb, hc⟩ := ih h
            refine ⟨h1, h2, h3,
              .send fd c.bytesSent (BUFFER_SIZE - c.bytesSent) r.ret :: evs, hmem evs hevs,
              fun hw hb => hwb (fun e he => hw e (List.mem_cons_of_mem _ he)) hb, ?_⟩
            rcases hc with ⟨hb, rfl⟩ | ⟨hb, rfl⟩
            · exact Or.inl ⟨hb, by simp [ServerState.sys]⟩
            · exact Or.inr ⟨hb, by simp [ServerState.sys]⟩
          · simp only [Option.some.injEq, Prod.mk.injEq] at h
            obtain ⟨rfl, rfl⟩ := h
            exact ⟨rfl, rfl, rfl, [], by simp, fun _ h => h,
              Or.inr ⟨hlt, by simp [ServerState.sys, hm]⟩⟩
        · obtain ⟨h1, h2, h3, evs, hevs, hwb, hc⟩ := ih h
          refine ⟨h1, h2, h3,
            .send fd c.bytesSent (BUFFER_SIZE - c.bytesSent) r.ret :: evs, hmem evs hevs,
            fun hw hb => hwb (fun e he => hw e (List.mem_cons_of_mem _ he)) hb, ?_⟩
          rcases hc with ⟨hb, rfl⟩ | ⟨hb, rfl⟩
          · exact Or.inl ⟨hb, by simp [ServerState.sys]⟩
          · exact Or.inr ⟨hb, by simp [ServerState.sys]⟩
    · rename_i hlt
      simp only [Option.some.injEq, Prod.mk.injEq] at h
      obtain ⟨rfl, rfl⟩ := h
      exact ⟨rfl, rfl, rfl, [], by simp, fun _ h => h, Or.inl ⟨Nat.le_of_not_lt hlt, by simp⟩⟩

/-- The record the receiving branch leaves behind when the frame is complete. -/
theorem recvBranch_cases {rng : Nat → Nat} {fd : Int} {io : List IoRet} {modOk : Bool}
    {s s' : ServerState} {c c' : ClientData}
    (h : recvBranch rng fd s c io modOk = some (s', c')) :
    ∃ (evs : List Sys) (c1 : ClientData),
      (∃ s1, recvLoop fd s c io = some (s1, c1)) ∧
      (∀ e ∈ evs, RecvStep fd e) ∧
      c1.bytesSent = c.bytesSent ∧ c1.receivingData = c.receivingData ∧
      c1.buffer.length = c.buffer.length ∧
      ((∀ e ∈ evs, WellBehaved e) → c.bytesReceived ≤ BUFFER_SIZE →
        c1.bytesReceived ≤ BUFFER_SIZE) ∧
      ((BUFFER_SIZE < c1.bytesReceived ∧ c' = c1 ∧
        s' = { s with log := s.log ++ evs, clients := mapStore fd c1 s.clients }) ∨
       (c1.bytesReceived = BUFFER_SIZE ∧ modOk = true ∧
        c' = { c1 with
               buffer := xorTransform c1.buffer (fun j => rng (s.randCalls + j))
               receivingData := false, bytesSent := 0 } ∧
        s' = { s with
               log := s.log ++ evs ++ [.epollMod fd .write true]
               clients := mapStore fd c' s.clients
               randCalls := s.randCalls + BUFFER_SIZE
               interest := mapAssign fd .write s.interest }) ∨
       (c1.bytesReceived = BUFFER_SIZE ∧ modOk = false ∧
        c' = { c1 with
               buffer := xorTransform c1.buffer (fun j => rng (s.randCalls + j))
               receivingData := false, bytesSent := 0 } ∧
        s' = { s with
               log := s.log ++ evs ++ [.epollMod fd .write false, .close fd]
               clients := mapErase fd s.clients
               randCalls := s.randCalls + BUFFER_SIZE
               activeConnections := s.activeConnections - 1 }) ∨
       (c1.bytesReceived < BUFFER_SIZE ∧ c' = c1 ∧
        s' = { s with
               log := s.log ++ evs ++
                 [.recv fd c1.bytesReceived (BUFFER_SIZE - c1.bytesReceived) 0,
                  .epollDel fd, .close fd]
               interest := mapErase fd s.interest
               totalBytesProcessed := s.totalBytesProcessed + c1.bytesReceived
               clients := mapErase fd s.clients
               activeConnections := s.activeConnections - 1 }) ∨
       (c1.bytesReceived < BUFFER_SIZE ∧ c' = c1 ∧
        s' = { s with
               log := s.log ++ evs ++
                 [.recv fd c1.bytesReceived (BUFFER_SIZE - c1.bytesReceived) (-1),
                  .epollDel fd, .close fd]
               interest := mapErase fd s.interest
               clients := mapErase fd s.clients
               activeConnections := s.activeConnections - 1 })) := by
  unfold recvBranch at h
  cases hl : recvLoop fd s c io with
  | none => rw [hl] at h; exact absurd h (by simp)
  | some p =>
    obtain ⟨s1, c1⟩ := p
    rw [hl] at h
    obtain ⟨h1, h2, h3, evs, hevs, hwb, hc⟩ := recvLoop_cases hl
    refine ⟨evs, c1, ⟨s1, rfl⟩, hevs, h1, h2, h3, hwb, ?_⟩
    simp only at h
    rcases hc with ⟨hb, rfl⟩ | ⟨hb, rfl⟩ | ⟨hb, rfl⟩
    · by_cases h16 : c1.bytesReceived = BUFFER_SIZE
      · rw [if_pos h16] at h
        cases modOk with
        | true =>
          simp only [if_true] at h
          simp only [Option.some.injEq, Prod.mk.injEq] at h
          obtain ⟨rfl, rfl⟩ := h
          exact Or.inr (Or.inl ⟨h16, rfl, rfl, by simp [ServerState.sys, mapStore_store]⟩)
        | false =>
          simp only [Bool.false_eq_true, if_false] at h
          simp only [Option.some.injEq, Prod.mk.injEq] at h
          obtain ⟨rfl, rfl⟩ := h
          exact Or.inr (Or.inr (Or.inl ⟨h16, rfl, rfl,
            by simp [ServerState.sys, mapStore_store, mapErase_store]⟩))
      · rw [if_neg h16] at h
        simp only [Option.some.injEq, Prod.mk.injEq] at h
        obtain ⟨rfl, rfl⟩ := h
        exact Or.inl ⟨by omega, rfl, rfl⟩
    · rw [if_neg (by omega)] at h
      simp only [Option.some.injEq, Prod.mk.injEq] at h
      obtain ⟨rfl, rfl⟩ := h
      exact Or.inr (Or.inr (Or.inr (Or.inl ⟨hb, rfl, by simp [mapStore_erase]⟩)))
    · rw [if_neg (by omega)] at h
      simp only [Option.some.injEq, Prod.mk.injEq] at h
      obtain ⟨rfl, rfl⟩ := h
      exact Or.inr (Or.inr (Or.inr (Or.inr ⟨hb, rfl, by simp [mapStore_erase]⟩)))

theorem sendBranch_cases {fd : Int} {io : List IoRet} {modOk : Bool}
    {s s' : ServerState} {c c' : ClientData}
    (h : sendBranch fd s c io modOk = some (s', c')) :
    ∃ (evs : List Sys) (c1 : ClientData),
      (∃ s1, sendLoop fd s c io = some (s1, c1)) ∧
      (∀ e ∈ evs, SendStep fd e) ∧
      c1.bytesReceived = c.bytesReceived ∧ c1.receivingData = c.receivingData ∧
      c1.buffer = c.buffer ∧
      ((∀ e ∈ evs, WellBehaved e) → c.bytesSent ≤ BUFFER_SIZE →
        c1.bytesSent ≤ BUFFER_SIZE) ∧
      ((BUFFER_SIZE < c1.bytesSent ∧ c' = c1 ∧
        s' = { s with log := s.log ++ evs, clients := mapStore fd c1 s.clients }) ∨
       (c1.bytesSent = BUFFER_SIZE ∧ modOk = true ∧
        c' = { c1 with receivingData := true, bytesReceived := 0 } ∧
        s' = { s with
               log := s.log ++ evs ++ [.epollMod fd .read true]
               clients := mapStore fd c' s.clients
               totalBytesProcessed := s.totalBytesProcessed + BUFFER_SIZE
               interest := mapAssign fd .read s.interest }) ∨
       (c1.bytesSent = BUFFER_SIZE ∧ modOk = false ∧
        c' = { c1 with receivingData := true, bytesReceived := 0 } ∧
        s' = { s with
               log := s.log ++ evs ++ [.epollMod fd .read false, .close fd]
               clients := mapErase fd s.clients
               totalBytesProcessed := s.totalBytesProcessed + BUFFER_SIZE
               activeConnections := s.activeConnections - 1 }) ∨
       (c1.bytesSent < BUFFER_SIZE ∧ c' = c1 ∧
        s' = { s with
               log := s.log ++ evs ++
                 [.send fd c1.bytesSent (BUFFER_SIZE - c1.bytesSent) (-1),
                  .epollDel fd, .close fd]
               interest := mapErase fd s.interest
               clients := mapErase fd s.clients
               activeConnections := s.activeConnections - 1 })) := by
  unfold sendBranch at h
  cases hl : sendLoop fd s c io with
  | none => rw [hl] at h; exact absurd h (by simp)
  | some p =>
    obtain ⟨s1, c1⟩ := p
    rw [hl] at h
    obtain ⟨h1, h2, h3, evs, hevs, hwb, hc⟩ := sendLoop_cases hl
    refine ⟨evs, c1, ⟨s1, rfl⟩, hevs, h1, h2, h3, hwb, ?_⟩
    simp only at h
    rcases hc with ⟨hb, rfl⟩ | ⟨hb, rfl⟩
    · by_cases h16 : c1.bytesSent = BUFFER_SIZE
      · rw [if_pos h16] at h
        cases modOk with
        | true =>
          simp only [if_true] at h
          simp only [Option.some.injEq, Prod.mk.injEq] at h
          obtain ⟨rfl, rfl⟩ := h
          exact Or.inr (Or.inl ⟨h16, rfl, rfl, by simp [ServerState.sys, mapStore_store]⟩)
        | false =>
          simp only [Bool.false_eq_true, if_false] at h
          simp only [Option.some.injEq, Prod.mk.injEq] at h
          obtain ⟨rfl, rfl⟩ := h
          exact Or.inr (Or.inr (Or.inl ⟨h16, rfl, rfl,
            by simp [ServerState.sys, mapStore_store, mapErase_store]⟩))
      · rw [if_neg h16] at h
        simp only [Option.some.injEq, Prod.mk.injEq] at h
        obtain ⟨rfl, rfl⟩ := h
        exact Or.inl ⟨by omega, rfl, rfl⟩
    · rw [if_neg (by omega)] at h
      simp only [Option.some.injEq, Prod.mk.injEq] at h
      obtain ⟨rfl, rfl⟩ := h
      exact Or.inr (Or.inr (Or.inr ⟨hb, rfl, by simp [mapStore_erase]⟩))

/-! ## Would-block -/

theorem recvLoop_wouldBlock (fd : Int) (s : ServerState) (c : ClientData) (r : IoRet)
    (rest : List IoRet) (hlt : c.bytesReceived < BUFFER_SIZE) (hr : r.ret = -1)
    (ha : r.again = true) :
    recvLoop fd s c (r :: rest) =
      recvLoop fd (s.sys (.recv fd c.bytesReceived (BUFFER_SIZE - c.bytesReceived) (-1)))
        c rest := by
  simp [recvLoop, hlt, hr, ha]

theorem sendLoop_wouldBlock (fd : Int) (s : ServerState) (c : ClientData) (r : IoRet)
    (rest : List IoRet) (hlt : c.bytesSent < BUFFER_SIZE) (hr : r.ret = -1)
    (ha : r.again = true) :
    sendLoop fd s c (r :: rest) =
      sendLoop fd (s.sys (.send fd c.bytesSent (BUFFER_SIZE - c.bytesSent) (-1)))
        c rest := by
  simp [sendLoop, hlt, hr, ha]

/-- C1 (as stated, refuted): with one connection on handle 5 in the Receiving
phase and no byte received, an activation whose first `recv` reports
would-block has not returned to the reactor (it is waiting for the answer to a
second `recv`), and when that second `recv` delivers 16 bytes the same
activation completes the frame: two `recv` calls are issued and the record is
no longer the one the activation started with. -/
theorem C1_wouldBlock_does_not_return :
    handleClient (fun _ => 0) oneClient 5 [wouldBlock] true = none ∧
    handleClient (fun _ => 0) oneClient 5 [wouldBlock, delivers (List.replicate 16 7)] true
      = some { oneClient with
               clients := [(5, { buffer := List.replicate 16 7, bytesReceived := 16,
                                 bytesSent := 0, receivingData := false })]
               interest := [(5, .write)]
               randCalls := 16
               log := oneClient.log ++
                 [.recv 5 0 16 (-1), .recv 5 0 16 16, .epollMod 5 .write true] } ∧
    handleClient (fun _ => 0) oneClient 5 [wouldBlock, delivers (List.replicate 16 7)] true
      ≠ some (oneClient.sys (.recv 5 0 16 (-1))) := by
  refine ⟨by decide, by decide, by decide⟩

/-! ## Outcomes of the handlers -/

theorem handleClient_cases {rng : Nat → Nat} {fd : Int} {io : List IoRet} {modOk : Bool}
    {s s' : ServerState} (h : handleClient rng s fd io modOk = some s') :
    (mapFind fd s.clients = none ∧
      s' = { s with log := s.log ++ [.epollDel fd, .close fd]
                    interest := mapErase fd s.interest }) ∨
    (∃ c c', mapFind fd s.clients = some c ∧ c.receivingData = true ∧
      recvBranch rng fd s c io modOk = some (s', c')) ∨
    (∃ c c', mapFind fd s.clients = some c ∧ c.receivingData = false ∧
      sendBranch fd s c io modOk = some (s', c')) := by
  unfold handleClient at h
  cases hf : mapFind fd s.clients with
  | none =>
    rw [hf] at h
    simp only [Option.some.injEq] at h
    subst h
    exact Or.inl ⟨rfl, by simp [ServerState.sys]⟩
  | some c =>
    rw [hf] at h
    simp only at h
    cases hr : c.receivingData with
    | true =>
      rw [hr] at h
      simp only [if_true] at h
      cases hb : recvBranch rng fd s c io modOk with
      | none => rw [hb] at h; exact absurd h (by simp)
      | some p =>
        obtain ⟨s1, c1⟩ := p
        rw [hb] at h
        simp only [Option.map_some', Option.some.injEq] at h
        subst h
        exact Or.inr (Or.inl ⟨c, c1, rfl, hr, hb⟩)
    | false =>
      rw [hr] at h
      simp only [Bool.false_eq_true, if_false] at h
      cases hb : sendBranch fd s c io modOk with
      | none => rw [hb] at h; exact absurd h (by simp)
      | some p =>
        obtain ⟨s1, c1⟩ := p
        rw [hb] at h
        simp only [Option.map_some', Option.some.injEq] at h
        subst h
        exact Or.inr (Or.inr ⟨c, c1, rfl, hr, hb⟩)

theorem handleAccept_cases (s : ServerState) (pending : List AcceptIn) :
    (handleAccept s pending).2 = pending.tail ∧
    ((handleAccept s pending).1 =
        { s with log := s.log ++ [.accept (acceptResult pending).fd] } ∨
     (handleAccept s pending).1 =
        { s with log := s.log ++ [.accept (acceptResult pending).fd,
                                  .close (acceptResult pending).fd] } ∨
     (handleAccept s pending).1 =
        { s with log := s.log ++ [.accept (acceptResult pending).fd,
                                  .epollAdd (acceptResult pending).fd .read false,
                                  .close (acceptResult pending).fd] } ∨
     ((acceptResult pending).fd ≠ -1 ∧ (acceptResult pending).nonBlocking = true ∧
      (acceptResult pending).noDelay = true ∧ (acceptResult pending).added = true ∧
      (handleAccept s pending).1 =
        { s with log := s.log ++ [.accept (acceptResult pending).fd,
                                  .epollAdd (acceptResult pending).fd .read true]
                 interest := mapAssign (acceptResult pending).fd .read s.interest
                 clients := mapAssign (acceptResult pending).fd ClientData.fresh s.clients
                 totalConnections := s.totalConnections + 1
                 activeConnections := s.activeConnections + 1 })) := by
  unfold handleAccept
  simp only
  by_cases h1 : (acceptResult pending).fd = -1
  · rw [if_pos h1]
    exact ⟨by trivial, Or.inl (by simp [ServerState.sys])⟩
  · rw [if_neg h1]
    by_cases h2 : (!(acceptResult pending).nonBlocking || !(acceptResult pending).noDelay) = true
    · rw [if_pos h2]
      exact ⟨by trivial, Or.inr (Or.inl (by simp [ServerState.sys]))⟩
    · rw [if_neg h2]
      cases h3 : (acceptResult pending).added with
      | false =>
        simp only [Bool.not_false, if_true]
        exact ⟨by trivial, Or.inr (Or.inr (Or.inl (by simp [ServerState.sys])))⟩
      | true =>
        simp only [Bool.not_true, Bool.false_eq_true, if_false]
        refine ⟨by trivial, Or.inr (Or.inr (Or.inr ⟨h1, ?_, ?_, by trivial, by simp [ServerState.sys]⟩))⟩
        · cases hn : (acceptResult pending).nonBlocking <;> simp [hn] at h2 ⊢
        · cases hn : (acceptResult pending).noDelay <;> simp [hn] at h2 ⊢

/-! ## Where an activation ends -/

theorem handleClient_recv {rng : Nat → Nat} {fd : Int} {io : List IoRet} {modOk : Bool}
    {s s' : ServerState} {c : ClientData} (hc : mapFind fd s.clients = some c)
    (hrecv : c.receivingData = true) (h : handleClient rng s fd io modOk = some s') :
    ∃ c', recvBranch rng fd s c io modOk = some (s', c') := by
  simp only [handleClient, hc, hrecv, if_true] at h
  cases hb : recvBranch rng fd s c io modOk with
  | none => rw [hb] at h; exact absurd h (by simp)
  | some p =>
    obtain ⟨s1, c1⟩ := p
    rw [hb] at h
    simp only [Option.map_some', Option.some.injEq] at h
    exact ⟨c1, by rw [h]⟩

theorem handleClient_send {rng : Nat → Nat} {fd : Int} {io : List IoRet} {modOk : Bool}
    {s s' : ServerState} {c : ClientData} (hc : mapFind fd s.clients = some c)
    (hsend : c.receivingData = false) (h : handleClient rng s fd io modOk = some s') :
    ∃ c', sendBranch fd s c io modOk = some (s', c') := by
  simp only [handleClient, hc, hsend, Bool.false_eq_true, if_false] at h
  cases hb : sendBranch fd s c io modOk with
  | none => rw [hb] at h; exact absurd h (by simp)
  | some p =>
    obtain ⟨s1, c1⟩ := p
    rw [hb] at h
    simp only [Option.map_some', Option.some.injEq] at h
    exact ⟨c1, by rw [h]⟩

theorem recvLoop_log {fd : Int} {io : List IoRet} {s s' : ServerState} {c c' : ClientData}
    (h : recvLoop fd s c io = some (s', c')) : ∃ post, s'.log = s.log ++ post := by
  obtain ⟨_, _, _, evs, _, _, hc⟩ := recvLoop_cases h
  rcases hc with ⟨_, rfl⟩ | ⟨_, rfl⟩ | ⟨_, rfl⟩
  · exact ⟨evs, rfl⟩
  · exact ⟨_, List.append_assoc _ _ _⟩
  · exact ⟨_, List.append_assoc _ _ _⟩

theorem sendLoop_log {fd : Int} {io : List IoRet} {s s' : ServerState} {c c' : ClientData}
    (h : sendLoop fd s c io = some (s', c')) : ∃ post, s'.log = s.log ++ post := by
  obtain ⟨_, _, _, evs, _, _, hc⟩ := sendLoop_cases h
  rcases hc with ⟨_, rfl⟩ | ⟨_, rfl⟩
  · exact ⟨evs, rfl⟩
  · exact ⟨_, List.append_assoc _ _ _⟩

theorem recvLoop_first_call {fd : Int} {r : IoRet} {rest : List IoRet} {s s' : ServerState}
    {c c' : ClientData} (hlt : c.bytesReceived < BUFFER_SIZE)
    (h : recvLoop fd s c (r :: rest) = some (s', c')) :
    ∃ post, s'.log =
      s.log ++ .recv fd c.bytesReceived (BUFFER_SIZE - c.bytesReceived) r.ret :: post := by
  simp only [recvLoop, if_pos hlt] at h
  have hrec : ∀ c0 : ClientData,
      recvLoop fd (s.sys (.recv fd c.bytesReceived (BUFFER_SIZE - c.bytesReceived) r.ret))
        c0 rest = some (s', c') →
      ∃ post, s'.log =
        s.log ++ .recv fd c.bytesReceived (BUFFER_SIZE - c.bytesReceived) r.ret :: post := by
    intro c0 h0
    obtain ⟨post, hp⟩ := recvLoop_log h0
    exact ⟨post, by rw [hp]; simp⟩
  split at h
  · exact hrec _ h
  · split at h
    · simp only [Option.some.injEq, Prod.mk.injEq] at h
      exact ⟨[.epollDel fd, .close fd], by rw [← h.1]; simp⟩
    · split at h
      · split at h
        · exact hrec _ h
        · simp only [Option.some.injEq, Prod.mk.injEq] at h
          exact ⟨[.epollDel fd, .close fd], by rw [← h.1]; simp⟩
      · exact hrec _ h

theorem sendLoop_first_call {fd : Int} {r : IoRet} {rest : List IoRet} {s s' : ServerState}
    {c c' : ClientData} (hlt : c.bytesSent < BUFFER_SIZE)
    (h : sendLoop fd s c (r :: rest) = some (s', c')) :
    ∃ post, s'.log =
      s.log ++ .send fd c.bytesSent (BUFFER_SIZE - c.bytesSent) r.ret :: post := by
  simp only [sendLoop, if_pos hlt] at h
  have hrec : ∀ c0 : ClientData,
      sendLoop fd (s.sys (.send fd c.bytesSent (BUFFER_SIZE - c.bytesSent) r.ret))
        c0 rest = some (s', c') →
      ∃ post, s'.log =
        s.log ++ .send fd c.bytesSent (BUFFER_SIZE - c.bytesSent) r.ret :: post := by
    intro c0 h0
    obtain ⟨post, hp⟩ := sendLoop_log h0
    exact ⟨post, by rw [hp]; simp⟩
  split at h
  · exact hrec _ h
  · split at h
    · split at h
      · exact hrec _ h
      · simp only [Option.some.injEq, Prod.mk.injEq] at h
        exact ⟨[.epollDel fd, .close fd], by rw [← h.1]; simp⟩
    · exact hrec _ h

theorem recvBranch_log {rng : Nat → Nat} {fd : Int} {io : List IoRet} {modOk : Bool}
    {s s' : ServerState} {c c' : ClientData}
    (h : recvBranch rng fd s c io modOk = some (s', c')) :
    ∃ s1 c1 post, recvLoop fd s c io = some (s1, c1) ∧ s'.log = s1.log ++ post := by
  unfold recvBranch at h
  cases hl : recvLoop fd s c io with
  | none => rw [hl] at h; exact absurd h (by simp)
  | some p =>
    obtain ⟨s1, c1⟩ := p
    rw [hl] at h
    simp only at h
    refine ⟨s1, c1, ?_⟩
    split at h
    · split at h
      · simp only [Option.some.injEq, Prod.mk.injEq] at h
        exact ⟨[.epollMod fd .write modOk], rfl, by rw [← h.1]; simp⟩
      · simp only [Option.some.injEq, Prod.mk.injEq] at h
        exact ⟨[.epollMod fd .write modOk, .close fd], rfl, by rw [← h.1]; simp⟩
    · simp only [Option.some.injEq, Prod.mk.injEq] at h
      exact ⟨[], rfl, by rw [← h.1]; simp⟩

theorem sendBranch_log {fd : Int} {io : List IoRet} {modOk : Bool}
    {s s' : ServerState} {c c' : ClientData}
    (h : sendBranch fd s c io modOk = some (s', c')) :
    ∃ s1 c1 post, sendLoop fd s c io = some (s1, c1) ∧ s'.log = s1.log ++ post ∧
      ∀ x off len ret, Sys.send x off len ret ∉ post := by
  unfold sendBranch at h
  cases hl : sendLoop fd s c io with
  | none => rw [hl] at h; exact absurd h (by simp)
  | some p =>
    obtain ⟨s1, c1⟩ := p
    rw [hl] at h
    simp only at h
    refine ⟨s1, c1, ?_⟩
    split at h
    · split at h
      · simp only [Option.some.injEq, Prod.mk.injEq] at h
        exact ⟨[.epollMod fd .read modOk], rfl, by rw [← h.1]; simp, by simp⟩
      · simp only [Option.some.injEq, Prod.mk.injEq] at h
        exact ⟨[.epollMod fd .read modOk, .close fd], rfl, by rw [← h.1]; simp, by simp⟩
    · simp only [Option.some.injEq, Prod.mk.injEq] at h
      exact ⟨[], rfl, by rw [← h.1]; simp, by simp⟩

/-- C1 (amended): when `recv` (Receiving) or `send` (Sending) reports
would-block before the frame is complete, the registry, counters and interest
set are left as they were and the handler does not return to the reactor on
that answer: the activation goes on exactly as an activation started on the
unchanged record would, its next call being the same call again (same handle,
offset and length).  An activation returns only at the frame boundary (the
loop is left with the progress at `BUFFER_SIZE` or beyond) or after a teardown
(the record is gone and the last calls are `EPOLL_CTL_DEL` and `close` of the
handle). -/
theorem C1_wouldBlock_retries (rng : Nat → Nat) (s : ServerState) (fd : Int)
    (c : ClientData) (r : IoRet) (rest : List IoRet) (modOk : Bool)
    (hc : mapFind fd s.clients = some c) (hr : r.ret = -1) (ha : r.again = true) :
    (c.receivingData = true → c.bytesReceived < BUFFER_SIZE →
      handleClient rng s fd [r] modOk = none ∧
      handleClient rng s fd (r :: rest) modOk =
        handleClient rng
          { s with log := s.log ++
              [.recv fd c.bytesReceived (BUFFER_SIZE - c.bytesReceived) (-1)] }
          fd rest modOk ∧
      ∀ (r2 : IoRet) (rest2 : List IoRet) (s' : ServerState),
        handleClient rng s fd (r :: r2 :: rest2) modOk = some s' →
        ∃ post, s'.log = s.log ++
          .recv fd c.bytesReceived (BUFFER_SIZE - c.bytesReceived) (-1) ::
          .recv fd c.bytesReceived (BUFFER_SIZE - c.bytesReceived) r2.ret :: post) ∧
    (c.receivingData = false → c.bytesSent < BUFFER_SIZE →
      handleClient rng s fd [r] modOk = none ∧
      handleClient rng s fd (r :: rest) modOk =
        handleClient rng
          { s with log := s.log ++
              [.send fd c.bytesSent (BUFFER_SIZE - c.bytesSent) (-1)] }
          fd rest modOk ∧
      ∀ (r2 : IoRet) (rest2 : List IoRet) (s' : ServerState),
        handleClient rng s fd (r :: r2 :: rest2) modOk = some s' →
        ∃ post, s'.log = s.log ++
          .send fd c.bytesSent (BUFFER_SIZE - c.bytesSent) (-1) ::
          .send fd c.bytesSent (BUFFER_SIZE - c.bytesSent) r2.ret :: post) ∧
    (c.receivingData = true → ∀ (io : List IoRet) (s' : ServerState),
      handleClient rng s fd io modOk = some s' →
      ∃ s1 c1, recvLoop fd s c io = some (s1, c1) ∧
        (BUFFER_SIZE ≤ c1.bytesReceived ∨
         (mapFind fd s'.clients = none ∧
          ∃ pre, s'.log = s.log ++ pre ++ [.epollDel fd, .close fd]))) ∧
    (c.receivingData = false → ∀ (io : List IoRet) (s' : ServerState),
      handleClient rng s fd io modOk = some s' →
      ∃ s1 c1, sendLoop fd s c io = some (s1, c1) ∧
        (BUFFER_SIZE ≤ c1.bytesSent ∨
         (mapFind fd s'.clients = none ∧
          ∃ pre, s'.log = s.log ++ pre ++ [.epollDel fd, .close fd]))) := by
  refine ⟨?_, ?_, ?_, ?_⟩
  · intro hrecv hlt
    refine ⟨?_, ?_, ?_⟩
    · simp [handleClient, hc, hrecv, recvBranch, recvLoop, hlt, hr, ha]
    · simp only [handleClient, hc, hrecv, if_true, recvBranch]
      rw [recvLoop_wouldBlock fd s c r rest hlt hr ha]
      rfl
    · intro r2 rest2 s' h
      obtain ⟨c', hb⟩ := handleClient_recv hc hrecv h
      obtain ⟨s1, c1, post, hl, hlog⟩ := recvBranch_log hb
      rw [recvLoop_wouldBlock fd s c r _ hlt hr ha] at hl
      obtain ⟨post2, hlog2⟩ := recvLoop_first_call hlt hl
      exact ⟨post2 ++ post, by rw [hlog, hlog2]; simp⟩
  · intro hsend hlt
    refine ⟨?_, ?_, ?_⟩
    · simp [handleClient, hc, hsend, sendBranch, sendLoop, hlt, hr, ha]
    · simp only [handleClient, hc, hsend, Bool.false_eq_true, if_false, sendBranch]
      rw [sendLoop_wouldBlock fd s c r rest hlt hr ha]
      rfl
    · intro r2 rest2 s' h
      obtain ⟨c', hb⟩ := handleClient_send hc hsend h
      obtain ⟨s1, c1, post, hl, hlog, _⟩ := sendBranch_log hb
      rw [sendLoop_wouldBlock fd s c r _ hlt hr ha] at hl
      obtain ⟨post2, hlog2⟩ := sendLoop_first_call hlt hl
      exact ⟨post2 ++ post, by rw [hlog, hlog2]; simp⟩
  · intro hrecv io s' h
    obtain ⟨c', hb⟩ := handleClient_recv hc hrecv h
    obtain ⟨evs, c1, ⟨s1, hl⟩, _, _, _, _, _, hcase⟩ := recvBranch_cases hb
    refine ⟨s1, c1, hl, ?_⟩
    rcases hcase with ⟨hgt, _, _⟩ | ⟨h16, _, _, _⟩ | ⟨h16, _, _, _⟩ | ⟨_, _, hs'⟩ | ⟨_, _, hs'⟩
    · exact Or.inl (Nat.le_of_lt hgt)
    · exact Or.inl (Nat.le_of_eq h16.symm)
    · exact Or.inl (Nat.le_of_eq h16.symm)
    · refine Or.inr ⟨by rw [hs']; exact mapFind_erase_self _ _,
        evs ++ [.recv fd c1.bytesReceived (BUFFER_SIZE - c1.bytesReceived) 0], ?_⟩
      rw [hs']
      simp
    · refine Or.inr ⟨by rw [hs']; exact mapFind_erase_self _ _,
        evs ++ [.recv fd c1.bytesReceived (BUFFER_SIZE - c1.bytesReceived) (-1)], ?_⟩
      rw [hs']
      simp
  · intro hsend io s' h
    obtain ⟨c', hb⟩ := handleClient_send hc hsend h
    obtain ⟨evs, c1, ⟨s1, hl⟩, _, _, _, _, _, hcase⟩ := sendBranch_cases hb
    refine ⟨s1, c1, hl, ?_⟩
    rcases hcase with ⟨hgt, _, _⟩ | ⟨h16, _, _, _⟩ | ⟨h16, _, _, _⟩ | ⟨_, _, hs'⟩
    · exact Or.inl (Nat.le_of_lt hgt)
    · exact Or.inl (Nat.le_of_eq h16.symm)
    · exact Or.inl (Nat.le_of_eq h16.symm)
    · refine Or.inr ⟨by rw [hs']; exact mapFind_erase_self _ _,
        evs ++ [.send fd c1.bytesSent (BUFFER_SIZE - c1.bytesSent) (-1)], ?_⟩
      rw [hs']
      simp

theorem C1_wouldBlock_retries_witness :
    mapFind 5 oneClient.clients = some ClientData.fresh ∧
    wouldBlock.ret = -1 ∧ wouldBlock.again = true ∧
    (handleClient (fun _ => 0) oneClient 5 [wouldBlock] true = none ∧
      handleClient (fun _ => 0) oneClient 5 [wouldBlock, peerClosed] true =
        handleClient (fun _ => 0)
          { oneClient with log := oneClient.log ++ [.recv 5 0 (BUFFER_SIZE - 0) (-1)] }
          5 [peerClosed] true ∧
      ∀ (r2 : IoRet) (rest2 : List IoRet) (s' : ServerState),
        handleClient (fun _ => 0) oneClient 5 (wouldBlock :: r2 :: rest2) true = some s' →
        ∃ post, s'.log = oneClient.log ++
          .recv 5 0 (BUFFER_SIZE - 0) (-1) :: .recv 5 0 (BUFFER_SIZE - 0) r2.ret :: post) ∧
    (∀ (io : List IoRet) (s' : ServerState),
      handleClient (fun _ => 0) oneClient 5 io true = some s' →
      ∃ s1 c1, recvLoop 5 oneClient ClientData.fresh io = some (s1, c1) ∧
        (BUFFER_SIZE ≤ c1.bytesReceived ∨
         (mapFind 5 s'.clients = none ∧
          ∃ pre, s'.log = oneClient.log ++ pre ++ [.epollDel 5, .close 5]))) :=
  ⟨by decide, by decide, by decide,
   (C1_wouldBlock_retries (fun _ => 0) oneClient 5 ClientData.fresh wouldBlock [peerClosed]
      true (by decide) (by decide) (by decide)).1 (by decide) (by decide),
   (C1_wouldBlock_retries (fun _ => 0) oneClient 5 ClientData.fresh wouldBlock [peerClosed]
      true (by decide) (by decide) (by decide)).2.2.1 (by decide)⟩

/-! ## Counting on the log -/

theorem sentBytes_append (a b : List Sys) : sentBytes (a ++ b) = sentBytes a + sentBytes b := by
  simp [sentBytes]

theorem sentBytes_cons (e : Sys) (l : List Sys) :
    sentBytes (e :: l) = sentWeight e + sentBytes l := by
  simp [sentBytes]

theorem sentBytes_nil : sentBytes [] = 0 := rfl


theorem framesEchoed_append (a b : List Sys) :
    framesEchoed (a ++ b) = framesEchoed a + framesEchoed b := by
  simp [framesEchoed]

theorem unfinishedBytesAtClose_append (a b : List Sys) :
    unfinishedBytesAtClose (a ++ b) = unfinishedBytesAtClose a + unfinishedBytesAtClose b := by
  simp [unfinishedBytesAtClose]

theorem framesEchoed_cons (e : Sys) (l : List Sys) :
    framesEchoed (e :: l) = echoedWeight e + framesEchoed l := by
  simp [framesEchoed]

theorem unfinishedBytesAtClose_cons (e : Sys) (l : List Sys) :
    unfinishedBytesAtClose (e :: l) = unfinishedWeight e + unfinishedBytesAtClose l := by
  simp [unfinishedBytesAtClose]

theorem framesEchoed_nil : framesEchoed [] = 0 := rfl

theorem unfinishedBytesAtClose_nil : unfinishedBytesAtClose [] = 0 := rfl

theorem framesEchoed_recvSteps {fd : Int} {evs : List Sys} (h : ∀ e ∈ evs, RecvStep fd e) :
    framesEchoed evs = 0 := by
  induction evs with
  | nil => rfl
  | cons e t ih =>
    have he := h e (List.mem_cons_self _ _)
    have ht := ih (fun x hx => h x (List.mem_cons_of_mem _ hx))
    cases e <;> simp_all [RecvStep, framesEchoed, echoedWeight]

theorem unfinishedBytesAtClose_recvSteps {fd : Int} {evs : List Sys}
    (h : ∀ e ∈ evs, RecvStep fd e) : unfinishedBytesAtClose evs = 0 := by
  induction evs with
  | nil => rfl
  | cons e t ih =>
    have he := h e (List.mem_cons_self _ _)
    have ht := ih (fun x hx => h x (List.mem_cons_of_mem _ hx))
    cases e <;> simp_all [RecvStep, unfinishedBytesAtClose, unfinishedWeight]

theorem framesEchoed_sendSteps {fd : Int} {evs : List Sys} (h : ∀ e ∈ evs, SendStep fd e) :
    framesEchoed evs = 0 := by
  induction evs with
  | nil => rfl
  | cons e t ih =>
    have he := h e (List.mem_cons_self _ _)
    have ht := ih (fun x hx => h x (List.mem_cons_of_mem _ hx))
    cases e <;> simp_all [SendStep, framesEchoed, echoedWeight]

theorem unfinishedBytesAtClose_sendSteps {fd : Int} {evs : List Sys}
    (h : ∀ e ∈ evs, SendStep fd e) : unfinishedBytesAtClose evs = 0 := by
  induction evs with
  | nil => rfl
  | cons e t ih =>
    have he := h e (List.mem_cons_self _ _)
    have ht := ih (fun x hx => h x (List.mem_cons_of_mem _ hx))
    cases e <;> simp_all [SendStep, unfinishedBytesAtClose, unfinishedWeight]

theorem afterHalfFrameClose_reachable (rng : Nat → Nat) :
    Reachable 3 rng afterHalfFrameClose :=
  Reachable.step halfFrameThenClose
    (@Reachable.step 3 _ ServerState.init oneClient acceptFive Reachable.init rfl) rfl

/-- C2 (as stated, refuted): after one connection is accepted, delivers 8 bytes
and is closed by its peer, the server is in a reachable state in which no
Sending phase has completed and `totalBytesProcessed` is 8: not 16 times the
number of echoed frames, and not a multiple of 16. -/
theorem C2_counter_not_multiple_of_16 :
    Reachable 3 (fun _ => 0) afterHalfFrameClose ∧
    framesEchoed afterHalfFrameClose.log = 0 ∧
    afterHalfFrameClose.totalBytesProcessed = 8 ∧
    afterHalfFrameClose.totalBytesProcessed ≠
      (BUFFER_SIZE : Int) * framesEchoed afterHalfFrameClose.log ∧
    ¬ ((16 : Int) ∣ afterHalfFrameClose.totalBytesProcessed) :=
  ⟨afterHalfFrameClose_reachable _, by decide, by decide, by decide, by decide⟩

/-- C2 (amended): in every state reachable by the server loop,
`totalBytesProcessed` equals `BUFFER_SIZE` times the number of frames whose
Sending phase ran to completion plus the bytes of unfinished frames that
connections held when their peer closed; it is a multiple of 16 whenever no
peer has closed in the middle of a frame. -/
theorem C2_bytes_counter (serverSocket : Int) (rng : Nat → Nat) (s : ServerState)
    (hs : Reachable serverSocket rng s) :
    s.totalBytesProcessed =
      (BUFFER_SIZE : Int) * framesEchoed s.log + unfinishedBytesAtClose s.log ∧
    (unfinishedBytesAtClose s.log = 0 → (16 : Int) ∣ s.totalBytesProcessed) := by
  have key : s.totalBytesProcessed =
      (BUFFER_SIZE : Int) * framesEchoed s.log + unfinishedBytesAtClose s.log := by
    induction hs with
    | init => rfl
    | @step s s' ev _ hd ih =>
      unfold dispatch at hd
      split at hd
      · simp only [Option.some.injEq] at hd
        subst hd
        rcases (handleAccept_cases s ev.pending).2 with h | h | h | ⟨_, _, _, _, h⟩ <;>
          rw [h] <;>
          simp [framesEchoed_append, unfinishedBytesAtClose_append, framesEchoed_cons,
            unfinishedBytesAtClose_cons, framesEchoed_nil, unfinishedBytesAtClose_nil,
            echoedWeight, unfinishedWeight, ih]
      · rcases handleClient_cases hd with ⟨_, rfl⟩ | ⟨c, c', _, _, hb⟩ | ⟨c, c', _, _, hb⟩
        · simp [framesEchoed_append, unfinishedBytesAtClose_append, framesEchoed_cons,
            unfinishedBytesAtClose_cons, framesEchoed_nil, unfinishedBytesAtClose_nil,
            echoedWeight, unfinishedWeight, ih]
        · obtain ⟨evs, c1, _, hevs, _, _, _, _, hc⟩ := recvBranch_cases hb
          have e1 := framesEchoed_recvSteps hevs
          have e2 := unfinishedBytesAtClose_recvSteps hevs
          rcases hc with ⟨_, _, rfl⟩ | ⟨_, _, _, rfl⟩ | ⟨_, _, _, rfl⟩ | ⟨_, _, rfl⟩ |
            ⟨_, _, rfl⟩ <;>
            (simp [framesEchoed_append, unfinishedBytesAtClose_append, framesEchoed_cons,
              unfinishedBytesAtClose_cons, framesEchoed_nil, unfinishedBytesAtClose_nil,
              echoedWeight, unfinishedWeight, e1, e2, ih]
             try ring)
        · obtain ⟨evs, c1, _, hevs, _, _, _, _, hc⟩ := sendBranch_cases hb
          have e1 := framesEchoed_sendSteps hevs
          have e2 := unfinishedBytesAtClose_sendSteps hevs
          rcases hc with ⟨_, _, rfl⟩ | ⟨_, _, _, rfl⟩ | ⟨_, _, _, rfl⟩ | ⟨_, _, rfl⟩ <;>
            (simp [framesEchoed_append, unfinishedBytesAtClose_append, framesEchoed_cons,
              unfinishedBytesAtClose_cons, framesEchoed_nil, unfinishedBytesAtClose_nil,
              echoedWeight, unfinishedWeight, e1, e2, ih]
             try ring)
  refine ⟨key, fun h0 => ?_⟩
  rw [key, h0]
  exact ⟨framesEchoed s.log, by simp [BUFFER_SIZE]⟩

theorem C2_bytes_counter_witness :
    afterHalfFrameClose.totalBytesProcessed =
      (BUFFER_SIZE : Int) * framesEchoed afterHalfFrameClose.log +
        unfinishedBytesAtClose afterHalfFrameClose.log :=
  (C2_bytes_counter 3 (fun _ => 0) afterHalfFrameClose (afterHalfFrameClose_reachable _)).1

/-! ## Order of deregistration and close -/

theorem isTransfer_of_recvStep {fd : Int} {e : Sys} (h : RecvStep fd e) : IsTransfer e := by
  cases e <;> simp_all [RecvStep, IsTransfer]

theorem isTransfer_of_sendStep {fd : Int} {e : Sys} (h : SendStep fd e) : IsTransfer e := by
  cases e <;> simp_all [SendStep, IsTransfer]

theorem delThenClose_io_append {ios tail : List Sys} (hio : ∀ e ∈ ios, IsTransfer e)
    (ht : DelThenClose tail) : DelThenClose (ios ++ tail) := by
  induction ios with
  | nil => simpa using ht
  | cons e t ih =>
    have he := hio e (List.mem_cons_self _ _)
    have h' := ih (fun x hx => hio x (List.mem_cons_of_mem _ hx))
    cases e <;> simp_all [IsTransfer, DelThenClose]

theorem close_mem_io_append {ios tail : List Sys} (hio : ∀ e ∈ ios, IsTransfer e) {x : Int}
    (h : Sys.close x ∈ ios ++ tail) : Sys.close x ∈ tail := by
  rcases List.mem_append.1 h with h | h
  · exact absurd (hio _ h) (by simp [IsTransfer])
  · exact h

/-- C3 (as stated, refuted): when a complete frame has arrived on handle 5 and
the `EPOLL_CTL_MOD` to write interest fails, the handler closes handle 5 with
no `EPOLL_CTL_DEL` issued for it, and the handle is still in the interest set;
and the shutdown clean-up closes handle 5 with no `EPOLL_CTL_DEL` and leaves
its record in the registry. -/
theorem C3_close_without_deregister :
    handleClient (fun _ => 0) oneClient 5 [delivers (List.replicate 16 0)] false
      = some afterFailedModify ∧
    Sys.close 5 ∈ afterFailedModify.log ∧ Sys.epollDel 5 ∉ afterFailedModify.log ∧
    mapFind 5 afterFailedModify.interest = some Interest.read ∧
    (shutdown 3 4 oneClient).log = oneClient.log ++ [.close 5, .close 3, .close 4] ∧
    Sys.epollDel 5 ∉ (shutdown 3 4 oneClient).log ∧
    mapFind 5 (shutdown 3 4 oneClient).clients = some ClientData.fresh := by
  refine ⟨by decide, by decide, by decide, by decide, by decide, by decide, by decide⟩

/-- C3 (amended): in an activation of the connection handler in which no epoll
modify fails (peer close, recv error, send error, event for an unknown
handle), every `close` is issued directly after the `EPOLL_CTL_DEL` of the same
handle, the only handle closed is the event's, and afterwards that handle has
no record in the registry and no entry in the interest set.  The shutdown
clean-up closes every handle of the registry in key order, then the listening
socket and the epoll instance, and neither deregisters nor erases anything. -/
theorem C3_deregister_before_close (rng : Nat → Nat) (s s' : ServerState) (fd : Int)
    (io : List IoRet) (serverSocket epollFd : Int)
    (h : handleClient rng s fd io true = some s') :
    (∃ delta : List Sys, s'.log = s.log ++ delta ∧ DelThenClose delta ∧
      ∀ x, Sys.close x ∈ delta →
        x = fd ∧ mapFind fd s'.clients = none ∧ mapFind fd s'.interest = none) ∧
    (shutdown serverSocket epollFd s).log =
      s.log ++ s.clients.map (fun kv => Sys.close kv.1) ++
        [.close serverSocket, .close epollFd] ∧
    (shutdown serverSocket epollFd s).clients = s.clients ∧
    (shutdown serverSocket epollFd s).interest = s.interest := by
  refine ⟨?_, rfl, rfl, rfl⟩
  rcases handleClient_cases h with ⟨hn, rfl⟩ | ⟨c, c', _, _, hb⟩ | ⟨c, c', _, _, hb⟩
  · refine ⟨[.epollDel fd, .close fd], rfl, by simp [DelThenClose], ?_⟩
    intro x hx
    simp at hx
    exact ⟨hx, hn, mapFind_erase_self _ _⟩
  · obtain ⟨evs, c1, _, hevs, _, _, _, _, hc⟩ := recvBranch_cases hb
    have hio : ∀ e ∈ evs, IsTransfer e := fun e he => isTransfer_of_recvStep (hevs e he)
    rcases hc with ⟨_, _, rfl⟩ | ⟨_, _, _, rfl⟩ | ⟨_, hm, _, _⟩ | ⟨_, _, rfl⟩ | ⟨_, _, rfl⟩
    · refine ⟨evs ++ [], by simp, delThenClose_io_append hio trivial, ?_⟩
      intro x hx
      exact absurd (close_mem_io_append hio hx) (by simp)
    · refine ⟨evs ++ [.epollMod fd .write true], by simp,
        delThenClose_io_append hio (by simp [DelThenClose]), ?_⟩
      intro x hx
      exact absurd (close_mem_io_append hio hx) (by simp)
    · exact absurd hm (by simp)
    · refine ⟨evs ++ [.recv fd c1.bytesReceived (BUFFER_SIZE - c1.bytesReceived) 0,
          .epollDel fd, .close fd], by simp,
        delThenClose_io_append hio (by simp [DelThenClose]), ?_⟩
      intro x hx
      have hx' := close_mem_io_append hio hx
      simp at hx'
      exact ⟨hx', mapFind_erase_self _ _, mapFind_erase_self _ _⟩
    · refine ⟨evs ++ [.recv fd c1.bytesReceived (BUFFER_SIZE - c1.bytesReceived) (-1),
          .epollDel fd, .close fd], by simp,
        delThenClose_io_append hio (by simp [DelThenClose]), ?_⟩
      intro x hx
      have hx' := close_mem_io_append hio hx
      simp at hx'
      exact ⟨hx', mapFind_erase_self _ _, mapFind_erase_self _ _⟩
  · obtain ⟨evs, c1, _, hevs, _, _, _, _, hc⟩ := sendBranch_cases hb
    have hio : ∀ e ∈ evs, IsTransfer e := fun e he => isTransfer_of_sendStep (hevs e he)
    rcases hc with ⟨_, _, rfl⟩ | ⟨_, _, _, rfl⟩ | ⟨_, hm, _, _⟩ | ⟨_, _, rfl⟩
    · refine ⟨evs ++ [], by simp, delThenClose_io_append hio trivial, ?_⟩
      intro x hx
      exact absurd (close_mem_io_append hio hx) (by simp)
    · refine ⟨evs ++ [.epollMod fd .read true], by simp,
        delThenClose_io_append hio (by simp [DelThenClose]), ?_⟩
      intro x hx
      exact absurd (close_mem_io_append hio hx) (by simp)
    · exact absurd hm (by simp)
    · refine ⟨evs ++ [.send fd c1.bytesSent (BUFFER_SIZE - c1.bytesSent) (-1),
          .epollDel fd, .close fd], by simp,
        delThenClose_io_append hio (by simp [DelThenClose]), ?_⟩
      intro x hx
      have hx' := close_mem_io_append hio hx
      simp at hx'
      exact ⟨hx', mapFind_erase_self _ _, mapFind_erase_self _ _⟩

theorem C3_deregister_before_close_witness :
    handleClient (fun _ => 0) oneClient 5 halfFrameThenClose.io true
      = some afterHalfFrameClose ∧
    ∃ delta : List Sys, afterHalfFrameClose.log = oneClient.log ++ delta ∧
      DelThenClose delta ∧
      ∀ x, Sys.close x ∈ delta →
        x = 5 ∧ mapFind 5 afterHalfFrameClose.clients = none ∧
          mapFind 5 afterHalfFrameClose.interest = none :=
  ⟨by decide,
   (C3_deregister_before_close (fun _ => 0) oneClient afterHalfFrameClose 5
      halfFrameThenClose.io 3 4 (by decide)).1⟩

/-! ## Progress stays inside the buffer -/

theorem mapFind_store_elim {α : Type} {P : α → Prop} {k : Int} {v : α} {l : List (Int × α)}
    (hl : ∀ j w, mapFind j l = some w → P w) (hv : P v) :
    ∀ j w, mapFind j (mapStore k v l) = some w → P w := by
  intro j w hj
  by_cases hjk : j = k
  · subst hjk
    rw [mapFind_store_self] at hj
    cases hf : mapFind j l with
    | none => rw [hf] at hj; exact absurd hj (by simp)
    | some u =>
      rw [hf] at hj
      simp only [Option.map_some', Option.some.injEq] at hj
      exact hj ▸ hv
  · rw [mapFind_store_ne hjk] at hj
    exact hl j w hj

theorem mapFind_erase_elim {α : Type} {P : α → Prop} {k : Int} {l : List (Int × α)}
    (hl : ∀ j w, mapFind j l = some w → P w) :
    ∀ j w, mapFind j (mapErase k l) = some w → P w := by
  intro j w hj
  by_cases hjk : j = k
  · subst hjk
    rw [mapFind_erase_self] at hj
    exact absurd hj (by simp)
  · rw [mapFind_erase_ne hjk] at hj
    exact hl j w hj

theorem mapFind_assign_elim {α : Type} {P : α → Prop} {k : Int} {v : α} {l : List (Int × α)}
    (hl : ∀ j w, mapFind j l = some w → P w) (hv : P v) :
    ∀ j w, mapFind j (mapAssign k v l) = some w → P w := by
  intro j w hj
  by_cases hjk : j = k
  · subst hjk
    rw [mapFind_assign_self] at hj
    simp only [Option.some.injEq] at hj
    exact hj ▸ hv
  · rw [mapFind_assign_ne hjk] at hj
    exact hl j w hj

theorem length_foldl_set (f : List Nat → Nat → Nat) (l : List Nat) (buf : List Nat) :
    (l.foldl (fun b j => b.set j (f b j)) buf).length = buf.length := by
  induction l generalizing buf with
  | nil => rfl
  | cons j t ih => simp [List.foldl, ih]

theorem length_xorTransform (buf : List Nat) (r : Nat → Nat) :
    (xorTransform buf r).length = buf.length :=
  length_foldl_set (fun b j => (b.getD j 0 ^^^ (r j % 256)) % 256) _ buf

theorem insideBuffer_of_recvStep {fd : Int} {e : Sys} (h : RecvStep fd e)
    (hw : WellBehaved e) : InsideBuffer e := by
  cases e <;> simp_all [RecvStep, WellBehaved, InsideBuffer]
  omega

theorem insideBuffer_of_sendStep {fd : Int} {e : Sys} (h : SendStep fd e)
    (hw : WellBehaved e) : InsideBuffer e := by
  cases e <;> simp_all [SendStep, WellBehaved, InsideBuffer]
  omega

/-- The bounds every record of the registry satisfies. -/
theorem progress_bounds_step {serverSocket : Int} {rng : Nat → Nat} {s s' : ServerState}
    {ev : Event} (hd : dispatch serverSocket rng s ev = some s')
    (hwb : ∀ e ∈ s'.log, WellBehaved e) :
    (∀ e ∈ s.log, WellBehaved e) ∧
    ((∀ e ∈ s.log, InsideBuffer e) → ∀ e ∈ s'.log, InsideBuffer e) ∧
    ((∀ j w, mapFind j s.clients = some w →
        w.bytesReceived ≤ BUFFER_SIZE ∧ w.bytesSent ≤ BUFFER_SIZE ∧
          w.buffer.length = BUFFER_SIZE) →
      ∀ j w, mapFind j s'.clients = some w →
        w.bytesReceived ≤ BUFFER_SIZE ∧ w.bytesSent ≤ BUFFER_SIZE ∧
          w.buffer.length = BUFFER_SIZE) := by
  unfold dispatch at hd
  split at hd
  · simp only [Option.some.injEq] at hd
    subst hd
    rcases (handleAccept_cases s ev.pending).2 with h | h | h | ⟨_, _, _, _, h⟩ <;>
      rw [h] at hwb ⊢ <;> simp only [List.mem_append] at hwb ⊢
    · exact ⟨fun e he => hwb e (Or.inl he),
        fun hi e he => he.elim (hi e) (fun h => by simp at h; subst h; trivial), fun hr => hr⟩
    · exact ⟨fun e he => hwb e (Or.inl he),
        fun hi e he => he.elim (hi e)
          (fun h => by simp at h; rcases h with rfl | rfl <;> trivial), fun hr => hr⟩
    · exact ⟨fun e he => hwb e (Or.inl he),
        fun hi e he => he.elim (hi e)
          (fun h => by simp at h; rcases h with rfl | rfl | rfl <;> trivial), fun hr => hr⟩
    · exact ⟨fun e he => hwb e (Or.inl he),
        fun hi e he => he.elim (hi e)
          (fun h => by simp at h; rcases h with rfl | rfl <;> trivial),
        fun hr => mapFind_assign_elim hr ⟨by decide, by decide, by decide⟩⟩
  · rcases handleClient_cases hd with ⟨_, rfl⟩ | ⟨c, c', hf, _, hb⟩ | ⟨c, c', hf, _, hb⟩
    · simp only [List.mem_append] at hwb ⊢
      exact ⟨fun e he => hwb e (Or.inl he),
        fun hi e he => he.elim (hi e)
          (fun h => by simp at h; rcases h with rfl | rfl <;> trivial), fun hr => hr⟩
    · obtain ⟨evs, c1, _, hevs, hs1, _, hl1, hb1, hc⟩ := recvBranch_cases hb
      have hin : (∀ e ∈ evs, WellBehaved e) → ∀ e ∈ evs, InsideBuffer e :=
        fun hw e he => insideBuffer_of_recvStep (hevs e he) (hw e he)
      rcases hc with ⟨_, _, rfl⟩ | ⟨h16, _, rfl, rfl⟩ | ⟨_, _, _, rfl⟩ | ⟨hlt, _, rfl⟩ |
        ⟨hlt, _, rfl⟩ <;> simp only [List.mem_append] at hwb ⊢
      · have hev : ∀ e ∈ evs, WellBehaved e := fun e he => hwb e (Or.inr he)
        refine ⟨fun e he => hwb e (Or.inl he),
          fun hi e he => he.elim (hi e) (hin hev e), fun hr => ?_⟩
        have hc0 := hr _ _ hf
        exact mapFind_store_elim hr ⟨hb1 hev hc0.1, hs1 ▸ hc0.2.1, hl1 ▸ hc0.2.2⟩
      · have hev : ∀ e ∈ evs, WellBehaved e := fun e he => hwb e (Or.inl (Or.inr he))
        refine ⟨fun e he => hwb e (Or.inl (Or.inl he)),
          fun hi e he => he.elim (fun h => h.elim (hi e) (hin hev e))
            (fun h => by simp at h; subst h; trivial), fun hr => ?_⟩
        have hc0 := hr _ _ hf
        exact mapFind_store_elim hr
          ⟨Nat.le_of_eq h16, Nat.zero_le _, by simp [length_xorTransform, hl1, hc0.2.2]⟩
      · have hev : ∀ e ∈ evs, WellBehaved e := fun e he => hwb e (Or.inl (Or.inr he))
        exact ⟨fun e he => hwb e (Or.inl (Or.inl he)),
          fun hi e he => he.elim (fun h => h.elim (hi e) (hin hev e))
            (fun h => by simp at h; rcases h with rfl | rfl <;> trivial),
          fun hr => mapFind_erase_elim hr⟩
      · have hev : ∀ e ∈ evs, WellBehaved e := fun e he => hwb e (Or.inl (Or.inr he))
        exact ⟨fun e he => hwb e (Or.inl (Or.inl he)),
          fun hi e he => he.elim (fun h => h.elim (hi e) (hin hev e))
            (fun h => by
              simp at h
              rcases h with rfl | rfl | rfl
              · exact ⟨hlt, by omega, fun h0 => absurd h0 (by decide)⟩
              · trivial
              · trivial),
          fun hr => mapFind_erase_elim hr⟩
      · have hev : ∀ e ∈ evs, WellBehaved e := fun e he => hwb e (Or.inl (Or.inr he))
        exact ⟨fun e he => hwb e (Or.inl (Or.inl he)),
          fun hi e he => he.elim (fun h => h.elim (hi e) (hin hev e))
            (fun h => by
              simp at h
              rcases h with rfl | rfl | rfl
              · exact ⟨hlt, by omega, fun h0 => absurd h0 (by decide)⟩
              · trivial
              · trivial),
          fun hr => mapFind_erase_elim hr⟩
    · obtain ⟨evs, c1, _, hevs, hs1, _, hl1, hb1, hc⟩ := sendBranch_cases hb
      have hin : (∀ e ∈ evs, WellBehaved e) → ∀ e ∈ evs, InsideBuffer e :=
        fun hw e he => insideBuffer_of_sendStep (hevs e he) (hw e he)
      rcases hc with ⟨_, _, rfl⟩ | ⟨h16, _, rfl, rfl⟩ | ⟨_, _, _, rfl⟩ | ⟨hlt, _, rfl⟩ <;>
        simp only [List.mem_append] at hwb ⊢
      · have hev : ∀ e ∈ evs, WellBehaved e := fun e he => hwb e (Or.inr he)
        refine ⟨fun e he => hwb e (Or.inl he),
          fun hi e he => he.elim (hi e) (hin hev e), fun hr => ?_⟩
        have hc0 := hr _ _ hf
        exact mapFind_store_elim hr ⟨hs1 ▸ hc0.1, hb1 hev hc0.2.1, hl1 ▸ hc0.2.2⟩
      · have hev : ∀ e ∈ evs, WellBehaved e := fun e he => hwb e (Or.inl (Or.inr he))
        refine ⟨fun e he => hwb e (Or.inl (Or.inl he)),
          fun hi e he => he.elim (fun h => h.elim (hi e) (hin hev e))
            (fun h => by simp at h; subst h; trivial), fun hr => ?_⟩
        have hc0 := hr _ _ hf
        exact mapFind_store_elim hr
          ⟨Nat.zero_le _, Nat.le_of_eq h16, by simp [hl1, hc0.2.2]⟩
      · have hev : ∀ e ∈ evs, WellBehaved e := fun e he => hwb e (Or.inl (Or.inr he))
        exact ⟨fun e he => hwb e (Or.inl (Or.inl he)),
          fun hi e he => he.elim (fun h => h.elim (hi e) (hin hev e))
            (fun h => by simp at h; rcases h with rfl | rfl <;> trivial),
          fun hr => mapFind_erase_elim hr⟩
      · have hev : ∀ e ∈ evs, WellBehaved e := fun e he => hwb e (Or.inl (Or.inr he))
        exact ⟨fun e he => hwb e (Or.inl (Or.inl he)),
          fun hi e he => he.elim (fun h => h.elim (hi e) (hin hev e))
            (fun h => by
              simp at h
              rcases h with rfl | rfl | rfl
              · exact ⟨hlt, by omega, fun h0 => absurd h0 (by decide)⟩
              · trivial
              · trivial),
          fun hr => mapFind_erase_elim hr⟩

theorem afterFullFrame_reachable : Reachable 3 (fun _ => 0) afterFullFrame :=
  Reachable.step fullFrame
    (@Reachable.step 3 _ ServerState.init oneClient acceptFive Reachable.init rfl) (by decide)

/-- C4: in every state reachable by the server loop in which every `recv` and
`send` so far returned `-1`, `0`, or a positive count no larger than the length
asked for, every record of the registry has `bytesReceived ≤ BUFFER_SIZE`,
`bytesSent ≤ BUFFER_SIZE` and a buffer of `BUFFER_SIZE` bytes, and every
`recv`/`send` issued so far was issued at an offset below `BUFFER_SIZE` for
exactly `BUFFER_SIZE - offset` bytes (no underflow) and transferred bytes that
end inside the buffer. -/
theorem C4_progress_within_buffer (serverSocket : Int) (rng : Nat → Nat) (s : ServerState)
    (hs : Reachable serverSocket rng s) (hwb : ∀ e ∈ s.log, WellBehaved e) :
    (∀ fd c, mapFind fd s.clients = some c →
      0 ≤ c.bytesReceived ∧ c.bytesReceived ≤ BUFFER_SIZE ∧
      0 ≤ c.bytesSent ∧ c.bytesSent ≤ BUFFER_SIZE ∧ c.buffer.length = BUFFER_SIZE) ∧
    (∀ e ∈ s.log, InsideBuffer e) := by
  have key : (∀ j w, mapFind j s.clients = some w →
        w.bytesReceived ≤ BUFFER_SIZE ∧ w.bytesSent ≤ BUFFER_SIZE ∧
          w.buffer.length = BUFFER_SIZE) ∧ (∀ e ∈ s.log, InsideBuffer e) := by
    induction hs with
    | init => exact ⟨fun j w h => absurd h (by simp [ServerState.init, mapFind]),
        fun e he => absurd he (by simp [ServerState.init])⟩
    | @step s s' ev _ hd ih =>
      obtain ⟨h1, h2, h3⟩ := progress_bounds_step hd hwb
      obtain ⟨ihr, ihl⟩ := ih h1
      exact ⟨h3 ihr, h2 ihl⟩
  exact ⟨fun fd c hc => ⟨Nat.zero_le _, (key.1 fd c hc).1, Nat.zero_le _,
    (key.1 fd c hc).2.1, (key.1 fd c hc).2.2⟩, key.2⟩

theorem C4_progress_within_buffer_witness :
    (∀ e ∈ afterFullFrame.log, WellBehaved e) ∧
    (∀ fd c, mapFind fd afterFullFrame.clients = some c →
      0 ≤ c.bytesReceived ∧ c.bytesReceived ≤ BUFFER_SIZE ∧
      0 ≤ c.bytesSent ∧ c.bytesSent ≤ BUFFER_SIZE ∧ c.buffer.length = BUFFER_SIZE) ∧
    (∀ e ∈ afterFullFrame.log, InsideBuffer e) :=
  ⟨by simp [afterFullFrame, WellBehaved],
   C4_progress_within_buffer 3 (fun _ => 0) afterFullFrame afterFullFrame_reachable
     (by simp [afterFullFrame, WellBehaved])⟩

/-! ## Phase and registered interest -/

theorem interestMatchesPhase_step {serverSocket : Int} {rng : Nat → Nat} {s s' : ServerState}
    {ev : Event} (hd : dispatch serverSocket rng s ev = some s')
    (hi : InterestMatchesPhase s) : InterestMatchesPhase s' := by
  unfold dispatch at hd
  split at hd
  · simp only [Option.some.injEq] at hd
    subst hd
    rcases (handleAccept_cases s ev.pending).2 with h | h | h | ⟨_, _, _, _, h⟩ <;> rw [h]
    · exact hi
    · exact hi
    · exact hi
    · intro j w hj
      by_cases hjk : j = (acceptResult ev.pending).fd
      · subst hjk
        simp only [mapFind_assign_self, Option.some.injEq] at hj ⊢
        subst hj
        rfl
      · simp only [mapFind_assign_ne hjk] at hj ⊢
        exact hi j w hj
  · rcases handleClient_cases hd with ⟨hn, rfl⟩ | ⟨c, c', hf, _, hb⟩ | ⟨c, c', hf, _, hb⟩
    · intro j w hj
      have hjk : j ≠ ev.fd := by
        rintro rfl
        simp only at hj
        rw [hn] at hj
        exact absurd hj (by simp)
      simp only [mapFind_erase_ne hjk]
      exact hi j w hj
    · obtain ⟨evs, c1, _, _, _, hr1, _, _, hc⟩ := recvBranch_cases hb
      have hc0 := hi _ _ hf
      rcases hc with ⟨_, _, rfl⟩ | ⟨_, _, rfl, rfl⟩ | ⟨_, _, _, rfl⟩ | ⟨_, _, rfl⟩ |
        ⟨_, _, rfl⟩ <;> intro j w hj <;> by_cases hjk : j = ev.fd
      · subst hjk
        simp only [mapFind_store_self, hf, Option.map_some', Option.some.injEq] at hj
        subst hj
        simpa [phaseInterest, hr1] using hc0
      · simp only [mapFind_store_ne hjk] at hj
        exact hi j w hj
      · subst hjk
        simp only [mapFind_store_self, hf, Option.map_some', Option.some.injEq] at hj
        subst hj
        simp [mapFind_assign_self, phaseInterest]
      · simp only [mapFind_store_ne hjk, mapFind_assign_ne hjk] at hj ⊢
        exact hi j w hj
      · subst hjk
        simp only [mapFind_erase_self] at hj
        exact absurd hj (by simp)
      · simp only [mapFind_erase_ne hjk] at hj
        exact hi j w hj
      · subst hjk
        simp only [mapFind_erase_self] at hj
        exact absurd hj (by simp)
      · simp only [mapFind_erase_ne hjk] at hj ⊢
        exact hi j w hj
      · subst hjk
        simp only [mapFind_erase_self] at hj
        exact absurd hj (by simp)
      · simp only [mapFind_erase_ne hjk] at hj ⊢
        exact hi j w hj
    · obtain ⟨evs, c1, _, _, _, hr1, _, _, hc⟩ := sendBranch_cases hb
      have hc0 := hi _ _ hf
      rcases hc with ⟨_, _, rfl⟩ | ⟨_, _, rfl, rfl⟩ | ⟨_, _, _, rfl⟩ | ⟨_, _, rfl⟩ <;>
        intro j w hj <;> by_cases hjk : j = ev.fd
      · subst hjk
        simp only [mapFind_store_self, hf, Option.map_some', Option.some.injEq] at hj
        subst hj
        simpa [phaseInterest, hr1] using hc0
      · simp only [mapFind_store_ne hjk] at hj
        exact hi j w hj
      · subst hjk
        simp only [mapFind_store_self, hf, Option.map_some', Option.some.injEq] at hj
        subst hj
        simp [mapFind_assign_self, phaseInterest]
      · simp only [mapFind_store_ne hjk, mapFind_assign_ne hjk] at hj ⊢
        exact hi j w hj
      · subst hjk
        simp only [mapFind_erase_self] at hj
        exact absurd hj (by simp)
      · simp only [mapFind_erase_ne hjk] at hj
        exact hi j w hj
      · subst hjk
        simp only [mapFind_erase_self] at hj
        exact absurd hj (by simp)
      · simp only [mapFind_erase_ne hjk] at hj ⊢
        exact hi j w hj

/-- C5: with the epoll interest set kept as explicit state (changed by
successful `EPOLL_CTL_ADD`/`MOD` and by `EPOLL_CTL_DEL`), in every state
reachable by the server loop every record of the registry is registered with
read interest if and only if `receivingData` is true, and with write interest
otherwise; and an activation in which an epoll modify is attempted and fails
leaves no record for the handle in the registry (the record stays only when the
activation issued nothing but `recv`/`send` calls). -/
theorem C5_interest_matches_phase (serverSocket : Int) (rng : Nat → Nat) :
    (∀ s, Reachable serverSocket rng s → ∀ fd c, mapFind fd s.clients = some c →
      (mapFind fd s.interest = some Interest.read ↔ c.receivingData = true) ∧
      (mapFind fd s.interest = some Interest.write ↔ c.receivingData = false)) ∧
    (∀ s s' fd io, handleClient rng s fd io false = some s' →
      mapFind fd s'.clients = none ∨
      ∃ ios : List Sys, s'.log = s.log ++ ios ∧ ∀ e ∈ ios, IsTransfer e) := by
  constructor
  · intro s hs
    have key : InterestMatchesPhase s := by
      induction hs with
      | init => exact fun fd c h => absurd h (by simp [ServerState.init, mapFind])
      | step ev _ hd ih => exact interestMatchesPhase_step hd ih
    intro fd c hc
    have h := key fd c hc
    cases hr : c.receivingData <;> simp [h, phaseInterest, hr]
  · intro s s' fd io h
    rcases handleClient_cases h with ⟨hn, rfl⟩ | ⟨c, c', _, _, hb⟩ | ⟨c, c', _, _, hb⟩
    · exact Or.inl hn
    · obtain ⟨evs, c1, _, hevs, _, _, _, _, hc⟩ := recvBranch_cases hb
      rcases hc with ⟨_, _, rfl⟩ | ⟨_, hm, _, _⟩ | ⟨_, _, _, rfl⟩ | ⟨_, _, rfl⟩ | ⟨_, _, rfl⟩
      · exact Or.inr ⟨evs, rfl, fun e he => isTransfer_of_recvStep (hevs e he)⟩
      · exact absurd hm (by simp)
      · exact Or.inl (mapFind_erase_self _ _)
      · exact Or.inl (mapFind_erase_self _ _)
      · exact Or.inl (mapFind_erase_self _ _)
    · obtain ⟨evs, c1, _, hevs, _, _, _, _, hc⟩ := sendBranch_cases hb
      rcases hc with ⟨_, _, rfl⟩ | ⟨_, hm, _, _⟩ | ⟨_, _, _, rfl⟩ | ⟨_, _, rfl⟩
      · exact Or.inr ⟨evs, rfl, fun e he => isTransfer_of_sendStep (hevs e he)⟩
      · exact absurd hm (by simp)
      · exact Or.inl (mapFind_erase_self _ _)
      · exact Or.inl (mapFind_erase_self _ _)

theorem C5_interest_matches_phase_witness :
    (mapFind 5 afterFullFrame.interest = some Interest.read ↔ false = true) ∧
    (mapFind 5 afterFullFrame.interest = some Interest.write ↔ false = false) :=
  (C5_interest_matches_phase 3 (fun _ => 0)).1 afterFullFrame afterFullFrame_reachable 5
    { buffer := List.replicate 16 7, bytesReceived := 16, bytesSent := 0,
      receivingData := false } (by decide)

/-! ## The transform -/

theorem getElem?_foldl_range_set (f : Nat → Nat → Nat) (n : Nat) (buf : List Nat) (i : Nat) :
    ((List.range n).foldl (fun b j => b.set j (f j (b.getD j 0))) buf)[i]? =
      if i < n then (buf[i]?).map (f i) else buf[i]? := by
  induction n with
  | zero => simp
  | succ n ih =>
    rw [List.range_succ, List.foldl_append]
    simp only [List.foldl_cons, List.foldl_nil]
    rw [List.getElem?_set]
    have hlen : ((List.range n).foldl (fun b j => b.set j (f j (b.getD j 0))) buf).length
        = buf.length := length_foldl_set (fun b j => f j (b.getD j 0)) _ buf
    have hn := ih
    generalize (List.range n).foldl (fun b j => b.set j (f j (b.getD j 0))) buf = F
      at hlen hn ⊢
    by_cases hin : n = i
    · subst hin
      simp only [lt_self_iff_false, if_false] at hn
      rw [if_pos rfl, if_pos (Nat.lt_succ_self n), hlen, List.getD_eq_getElem?_getD, hn]
      by_cases hl : n < buf.length
      · simp [hl, List.getElem?_eq_getElem hl]
      · simp [hl, List.getElem?_eq_none (Nat.le_of_not_lt hl)]
    · rw [if_neg hin, hn]
      by_cases h1 : i < n
      · simp [h1, Nat.lt_succ_of_lt h1]
      · have : ¬ i < n + 1 := by omega
        simp [h1, this]

theorem getElem?_xorTransform (buf : List Nat) (r : Nat → Nat) (i : Nat) :
    (xorTransform buf r)[i]? =
      if i < BUFFER_SIZE then (buf[i]?).map (fun b => (b ^^^ (r i % 256)) % 256)
      else buf[i]? :=
  getElem?_foldl_range_set (fun j b => (b ^^^ (r j % 256)) % 256) BUFFER_SIZE buf i

theorem xor_byte_twice {b m : Nat} (hb : b < 256) (hm : m < 256) :
    ((b ^^^ m) % 256 ^^^ m) % 256 = b := by
  have h1 : b ^^^ m < 2 ^ 8 := Nat.xor_lt_two_pow (by simpa using hb) (by simpa using hm)
  have h2 : (b ^^^ m) % 256 = b ^^^ m := Nat.mod_eq_of_lt (by simpa using h1)
  rw [h2, Nat.xor_assoc, Nat.xor_self, Nat.xor_zero]
  exact Nat.mod_eq_of_lt hb

/-- C6: the server's transform is a per-byte XOR involution: applying it with
the generator outputs `r` to the result of applying it with `r` to a 16-byte
buffer `b` gives `b` again; and the transform of the all-zero frame, XORed
byte-wise with `r j % 256`, is the all-zero frame. -/
theorem C6_transform_involution (b : List Nat) (r : Nat → Nat)
    (hlen : b.length = BUFFER_SIZE) (hbytes : ∀ x ∈ b, x < 256) :
    xorTransform (xorTransform b r) r = b ∧
    xorWithDraws (xorTransform (List.replicate BUFFER_SIZE 0) r) r
      = List.replicate BUFFER_SIZE 0 := by
  constructor
  · apply List.ext_getElem?
    intro i
    rw [getElem?_xorTransform, getElem?_xorTransform]
    by_cases hi : i < BUFFER_SIZE
    · have hil : i < b.length := hlen ▸ hi
      have hb := hbytes _ (List.getElem_mem hil)
      simp only [hi, if_true, List.getElem?_eq_getElem hil, Option.map_some']
      rw [xor_byte_twice hb (Nat.mod_lt _ (by decide))]
    · simp [hi]
  · simp [xorWithDraws, xorTransform, BUFFER_SIZE, List.range_succ, length_xorTransform]

theorem C6_transform_involution_witness :
    xorTransform (xorTransform (List.range 16) (fun j => 1000 + j)) (fun j => 1000 + j)
      = List.range 16 ∧
    xorWithDraws (xorTransform (List.replicate BUFFER_SIZE 0) (fun j => 1000 + j))
        (fun j => 1000 + j) = List.replicate BUFFER_SIZE 0 :=
  C6_transform_involution (List.range 16) (fun j => 1000 + j) (by decide) (by decide)

/-! ## Completion of the Receiving phase -/

theorem not_mod_mem_recvSteps {fd : Int} {evs : List Sys} (h : ∀ e ∈ evs, RecvStep fd e)
    (x : Int) (i : Interest) (ok : Bool) : Sys.epollMod x i ok ∉ evs :=
  fun hm => by simpa [RecvStep] using h _ hm

theorem sendBranch_of_sendLoop {fd : Int} {io : List IoRet} (modOk : Bool)
    {s s1 : ServerState} {c c1 : ClientData} (hl : sendLoop fd s c io = some (s1, c1)) :
    ∃ s' c', sendBranch fd s c io modOk = some (s', c') := by
  unfold sendBranch
  rw [hl]
  simp only
  split
  · split <;> exact ⟨_, _, rfl⟩
  · exact ⟨_, _, rfl⟩

theorem not_recv_mem_sendSteps {fd : Int} {evs : List Sys} (h : ∀ e ∈ evs, SendStep fd e)
    (x : Int) (off len : Nat) (ret : Int) : Sys.recv x off len ret ∉ evs :=
  fun hm => by simpa [SendStep] using h _ hm

theorem not_mod_mem_sendSteps {fd : Int} {evs : List Sys} (h : ∀ e ∈ evs, SendStep fd e)
    (x : Int) (i : Interest) (ok : Bool) : Sys.epollMod x i ok ∉ evs :=
  fun hm => by simpa [SendStep] using h _ hm

/-- What an activation of a connection in the Sending phase leaves behind,
by the value of `bytesSent` at the end of the send loop: at `BUFFER_SIZE` the
counter grows by `BUFFER_SIZE`, the record is switched to Receiving with
`bytesReceived = 0` and an epoll modify to read interest is issued; at another
value the record stays Sending and the counter is unchanged.  No `recv` is
issued and the buffer is unchanged either way. -/
theorem sendBranch_completion (rng : Nat → Nat) (s s1 : ServerState) (fd : Int)
    (c c1 : ClientData) (io : List IoRet) (modOk : Bool)
    (hf : mapFind fd s.clients = some c) (hr : c.receivingData = false)
    (hl : sendLoop fd s c io = some (s1, c1)) :
    ∃ s' c' delta, sendBranch fd s c io modOk = some (s', c') ∧
      handleClient rng s fd io modOk = some s' ∧
      s'.log = s.log ++ delta ∧
      (∀ x off len ret, Sys.recv x off len ret ∉ delta) ∧
      c'.buffer = c.buffer ∧
      (c1.bytesSent = BUFFER_SIZE →
        s'.totalBytesProcessed = s.totalBytesProcessed + BUFFER_SIZE ∧
        c'.receivingData = true ∧ c'.bytesReceived = 0 ∧
        Sys.epollMod fd .read modOk ∈ delta ∧
        (modOk = true →
          mapFind fd s'.clients = some c' ∧ mapFind fd s'.interest = some Interest.read)) ∧
      (c1.bytesSent ≠ BUFFER_SIZE →
        c' = c1 ∧ c'.receivingData = false ∧
        s'.totalBytesProcessed = s.totalBytesProcessed ∧
        ∀ x i ok, Sys.epollMod x i ok ∉ delta) := by
  obtain ⟨s', c', hb⟩ := sendBranch_of_sendLoop modOk hl
  have hh : handleClient rng s fd io modOk = some s' := by
    simp [handleClient, hf, hr, hb]
  obtain ⟨evs, c1', ⟨s1', hl'⟩, hevs, _, hr1, hbuf1, _, hc⟩ := sendBranch_cases hb
  have hc1 : c1' = c1 := by
    rw [hl] at hl'
    simp only [Option.some.injEq, Prod.mk.injEq] at hl'
    exact hl'.2.symm
  subst hc1
  have hnorecv := not_recv_mem_sendSteps hevs
  have hnomod := not_mod_mem_sendSteps hevs
  have hnorecv' : ∀ tail : List Sys, (∀ x off len ret, Sys.recv x off len ret ∉ tail) →
      ∀ x off len ret, Sys.recv x off len ret ∉ evs ++ tail := by
    intro tail ht x off len ret hmem
    rcases List.mem_append.1 hmem with h | h
    · exact hnorecv _ _ _ _ h
    · exact ht _ _ _ _ h
  have hnomod' : ∀ tail : List Sys, (∀ x i ok, Sys.epollMod x i ok ∉ tail) →
      ∀ x i ok, Sys.epollMod x i ok ∉ evs ++ tail := by
    intro tail ht x i ok hmem
    rcases List.mem_append.1 hmem with h | h
    · exact hnomod _ _ _ h
    · exact ht _ _ _ h
  rcases hc with ⟨hgt, hc', hs'⟩ | ⟨h16, hm, hc', hs'⟩ | ⟨h16, hm, hc', hs'⟩ |
    ⟨hlt, hc', hs'⟩
  · have hne : c1'.bytesSent ≠ BUFFER_SIZE := Nat.ne_of_gt hgt
    have hlog : s'.log = s.log ++ (evs ++ []) := by rw [hs']; simp
    have htotal : s'.totalBytesProcessed = s.totalBytesProcessed := by rw [hs']
    have hrecv : c'.receivingData = false := by rw [hc', hr1, hr]
    have hbuf : c'.buffer = c.buffer := by rw [hc', hbuf1]
    exact ⟨s', c', evs ++ [], hb, hh, hlog, hnorecv' [] (by simp), hbuf,
      fun h => absurd h hne, fun _ => ⟨hc', hrecv, htotal, hnomod' [] (by simp)⟩⟩
  · have hlog : s'.log = s.log ++ (evs ++ [.epollMod fd .read modOk]) := by
      rw [hs', hm]; simp
    have htotal : s'.totalBytesProcessed = s.totalBytesProcessed + BUFFER_SIZE := by
      rw [hs']
    have hbuf : c'.buffer = c.buffer := by rw [hc']; exact hbuf1
    have hrecv : c'.receivingData = true := by rw [hc']
    have hzero : c'.bytesReceived = 0 := by rw [hc']
    have hreg : mapFind fd s'.clients = some c' := by
      rw [hs']
      simp only [mapFind_store_self, hf, Option.map_some']
    have hint : mapFind fd s'.interest = some Interest.read := by
      rw [hs']
      simp only [mapFind_assign_self]
    exact ⟨s', c', evs ++ [.epollMod fd .read modOk], hb, hh, hlog, hnorecv' _ (by simp),
      hbuf, fun _ => ⟨htotal, hrecv, hzero, by simp, fun _ => ⟨hreg, hint⟩⟩,
      fun h => absurd h16 h⟩
  · have hlog : s'.log = s.log ++ (evs ++ [.epollMod fd .read modOk, .close fd]) := by
      rw [hs', hm]; simp
    have htotal : s'.totalBytesProcessed = s.totalBytesProcessed + BUFFER_SIZE := by
      rw [hs']
    have hbuf : c'.buffer = c.buffer := by rw [hc']; exact hbuf1
    have hrecv : c'.receivingData = true := by rw [hc']
    have hzero : c'.bytesReceived = 0 := by rw [hc']
    exact ⟨s', c', evs ++ [.epollMod fd .read modOk, .close fd], hb, hh, hlog,
      hnorecv' _ (by simp), hbuf,
      fun _ => ⟨htotal, hrecv, hzero, by simp,
        fun h => absurd (hm.symm.trans h) (by simp)⟩,
      fun h => absurd h16 h⟩
  · have hne : c1'.bytesSent ≠ BUFFER_SIZE := Nat.ne_of_lt hlt
    have hlog : s'.log = s.log ++ (evs ++
        [.send fd c1'.bytesSent (BUFFER_SIZE - c1'.bytesSent) (-1),
         .epollDel fd, .close fd]) := by rw [hs']; simp
    have htotal : s'.totalBytesProcessed = s.totalBytesProcessed := by rw [hs']
    have hrecv : c'.receivingData = false := by rw [hc', hr1, hr]
    have hbuf : c'.buffer = c.buffer := by rw [hc', hbuf1]
    exact ⟨s', c', _, hb, hh, hlog, hnorecv' _ (by simp), hbuf,
      fun h => absurd h hne, fun _ => ⟨hc', hrecv, htotal, hnomod' _ (by simp)⟩⟩

/-! ### The `send` calls walk the buffer -/

theorem sendsFrom_of_no_send {fd : Int} {post : List Sys}
    (h : ∀ x off len ret, Sys.send x off len ret ∉ post) (a : Nat) :
    SendsFrom fd a post a := by
  induction post with
  | nil => rfl
  | cons e t ih =>
    have ht := ih (fun x off len ret hm => h x off len ret (List.mem_cons_of_mem _ hm))
    cases e with
    | send x off len ret => exact absurd (List.mem_cons_self _ _) (h x off len ret)
    | accept _ => exact ht
    | epollAdd _ _ _ => exact ht
    | epollMod _ _ _ => exact ht
    | epollDel _ => exact ht
    | close _ => exact ht
    | recv _ _ _ _ => exact ht

theorem sendsFrom_append {fd : Int} {d post : List Sys} {a fin : Nat}
    (hd : SendsFrom fd a d fin) (h : ∀ x off len ret, Sys.send x off len ret ∉ post) :
    SendsFrom fd a (d ++ post) fin := by
  induction d generalizing a with
  | nil =>
    have : fin = a := hd
    subst this
    exact sendsFrom_of_no_send h _
  | cons e t ih =>
    cases e with
    | send x off len ret =>
      obtain ⟨h1, h2, h3, h4, h5⟩ := hd
      exact ⟨h1, h2, h3, h4, ih h5⟩
    | accept _ => exact ih hd
    | epollAdd _ _ _ => exact ih hd
    | epollMod _ _ _ => exact ih hd
    | epollDel _ => exact ih hd
    | close _ => exact ih hd
    | recv _ _ _ _ => exact ih hd

theorem sentBytes_of_sendsFrom {fd : Int} {d : List Sys} {a fin : Nat}
    (hd : SendsFrom fd a d fin) : fin = a + sentBytes d := by
  induction d generalizing a with
  | nil =>
    have : fin = a := hd
    simp [this, sentBytes_nil]
  | cons e t ih =>
    cases e with
    | send x off len ret =>
      obtain ⟨_, _, _, _, h5⟩ := hd
      rw [ih h5, sentBytes_cons]
      simp only [sentWeight]
      omega
    | accept _ => rw [ih hd, sentBytes_cons]; simp [sentWeight]
    | epollAdd _ _ _ => rw [ih hd, sentBytes_cons]; simp [sentWeight]
    | epollMod _ _ _ => rw [ih hd, sentBytes_cons]; simp [sentWeight]
    | epollDel _ => rw [ih hd, sentBytes_cons]; simp [sentWeight]
    | close _ => rw [ih hd, sentBytes_cons]; simp [sentWeight]
    | recv _ _ _ _ => rw [ih hd, sentBytes_cons]; simp [sentWeight]

theorem sendLoop_sendsFrom {fd : Int} {io : List IoRet} {s s' : ServerState}
    {c c' : ClientData} (h : sendLoop fd s c io = some (s', c')) :
    ∃ delta, s'.log = s.log ++ delta ∧ SendsFrom fd c.bytesSent delta c'.bytesSent := by
  induction io generalizing s c with
  | nil =>
    simp only [sendLoop] at h
    split at h
    · exact absurd h (by simp)
    · simp only [Option.some.injEq, Prod.mk.injEq] at h
      obtain ⟨rfl, rfl⟩ := h
      exact ⟨[], by simp, rfl⟩
  | cons r rest ih =>
    simp only [sendLoop] at h
    split at h
    · rename_i hlt
      have hrec : ∀ c0 : ClientData, c0.bytesSent = c.bytesSent + r.ret.toNat →
          sendLoop fd (s.sys (.send fd c.bytesSent (BUFFER_SIZE - c.bytesSent) r.ret))
            c0 rest = some (s', c') →
          ∃ delta, s'.log = s.log ++ delta ∧
            SendsFrom fd c.bytesSent delta c'.bytesSent := by
        intro c0 hc0 h0
        obtain ⟨delta, hlog, hsf⟩ := ih h0
        refine ⟨.send fd c.bytesSent (BUFFER_SIZE - c.bytesSent) r.ret :: delta,
          by rw [hlog]; simp, rfl, rfl, hlt, rfl, ?_⟩
        rw [← hc0]
        exact hsf
      split at h
      · exact hrec _ rfl h
      · rename_i hnp
        have hz : r.ret.toNat = 0 := by omega
        split at h
        · rename_i hm
          split at h
          · exact hrec c (by omega) h
          · simp only [Option.some.injEq, Prod.mk.injEq] at h
            obtain ⟨rfl, rfl⟩ := h
            refine ⟨[.send fd c.bytesSent (BUFFER_SIZE - c.bytesSent) r.ret,
              .epollDel fd, .close fd], by simp, rfl, rfl, hlt, rfl, ?_⟩
            rw [hz]
            exact sendsFrom_of_no_send (by simp) _
        · exact hrec c (by omega) h
    · simp only [Option.some.injEq, Prod.mk.injEq] at h
      obtain ⟨rfl, rfl⟩ := h
      exact ⟨[], by simp, rfl⟩

theorem sendingStartsAtZero_step {serverSocket : Int} {rng : Nat → Nat} {s s' : ServerState}
    {ev : Event} (hd : dispatch serverSocket rng s ev = some s')
    (hi : SendingStartsAtZero s) : SendingStartsAtZero s' := by
  unfold dispatch at hd
  split at hd
  · simp only [Option.some.injEq] at hd
    subst hd
    rcases (handleAccept_cases s ev.pending).2 with h | h | h | ⟨_, _, _, _, h⟩ <;> rw [h]
    · exact hi
    · exact hi
    · exact hi
    · exact mapFind_assign_elim hi (fun h => absurd h (by simp [ClientData.fresh]))
  · rcases handleClient_cases hd with ⟨_, rfl⟩ | ⟨c, c', hf, hrd, hb⟩ | ⟨c, c', hf, hrd, hb⟩
    · exact hi
    · obtain ⟨evs, c1, _, _, _, hr1, _, _, hc⟩ := recvBranch_cases hb
      rcases hc with ⟨_, hc', rfl⟩ | ⟨_, _, hc', rfl⟩ | ⟨_, _, _, rfl⟩ | ⟨_, _, rfl⟩ |
        ⟨_, _, rfl⟩
      · exact mapFind_store_elim hi (fun h => absurd (hr1.symm.trans h) (by simp [hrd]))
      · exact mapFind_store_elim hi (fun _ => Or.inl (by rw [hc']))
      · exact mapFind_erase_elim hi
      · exact mapFind_erase_elim hi
      · exact mapFind_erase_elim hi
    · obtain ⟨evs, c1, _, _, _, _, _, _, hc⟩ := sendBranch_cases hb
      rcases hc with ⟨hgt, _, rfl⟩ | ⟨_, _, hc', rfl⟩ | ⟨_, _, _, rfl⟩ | ⟨_, _, rfl⟩
      · exact mapFind_store_elim hi (fun _ => Or.inr hgt)
      · exact mapFind_store_elim hi (fun h => absurd h (by rw [hc']; simp))
      · exact mapFind_erase_elim hi
      · exact mapFind_erase_elim hi

theorem sendingStartsAtZero_of_reachable {serverSocket : Int} {rng : Nat → Nat}
    {s : ServerState} (hs : Reachable serverSocket rng s) : SendingStartsAtZero s := by
  induction hs with
  | init => exact fun fd c h => absurd h (by simp [ServerState.init, mapFind])
  | step ev _ hd ih => exact sendingStartsAtZero_step hd ih

/-- C8: for a connection in the Sending phase, the `send` calls of an activation
walk the buffer: each is issued at the number of bytes sent so far for the rest
of the buffer, and `bytesSent` after the loop is `bytesSent` before it plus the
bytes handed to `send`.  An activation whose send loop ends with
`bytesSent = BUFFER_SIZE` returns with `totalBytesProcessed` increased by exactly
`BUFFER_SIZE`, `receivingData = true`, `bytesReceived = 0`, the buffer unchanged,
and an epoll modify to read interest issued for the handle; one whose send loop
ends with another `bytesSent` leaves the phase Sending and the counter
unchanged; no activation of a connection in the Sending phase issues a `recv`.
In a state reachable by the server loop, the activation that switches the
connection back to receiving started with `bytesSent = 0` and handed exactly
`BUFFER_SIZE` bytes to `send`, walking the buffer from byte 0 to `BUFFER_SIZE`:
the receive of the next frame starts only after all 16 bytes of this one have
been sent. -/
theorem C8_send_completion (serverSocket : Int) (rng : Nat → Nat) (s s1 : ServerState)
    (fd : Int) (c c1 : ClientData) (io : List IoRet) (modOk : Bool)
    (hf : mapFind fd s.clients = some c) (hr : c.receivingData = false)
    (hl : sendLoop fd s c io = some (s1, c1)) :
    ∃ s' c' delta, sendBranch fd s c io modOk = some (s', c') ∧
      handleClient rng s fd io modOk = some s' ∧
      s'.log = s.log ++ delta ∧
      (∀ x off len ret, Sys.recv x off len ret ∉ delta) ∧
      c'.buffer = c.buffer ∧
      SendsFrom fd c.bytesSent delta c1.bytesSent ∧
      c1.bytesSent = c.bytesSent + sentBytes delta ∧
      (c1.bytesSent = BUFFER_SIZE →
        s'.totalBytesProcessed = s.totalBytesProcessed + BUFFER_SIZE ∧
        c'.receivingData = true ∧ c'.bytesReceived = 0 ∧
        Sys.epollMod fd .read modOk ∈ delta ∧
        (modOk = true →
          mapFind fd s'.clients = some c' ∧ mapFind fd s'.interest = some Interest.read)) ∧
      (c1.bytesSent ≠ BUFFER_SIZE →
        c' = c1 ∧ c'.receivingData = false ∧
        s'.totalBytesProcessed = s.totalBytesProcessed ∧
        ∀ x i ok, Sys.epollMod x i ok ∉ delta) ∧
      (Reachable serverSocket rng s → c1.bytesSent = BUFFER_SIZE →
        c.bytesSent = 0 ∧ sentBytes delta = BUFFER_SIZE ∧
        SendsFrom fd 0 delta BUFFER_SIZE) := by
  obtain ⟨s', c', delta, hb, hh, hlog, hnorecv, hbuf, h16, hne⟩ :=
    sendBranch_completion rng s s1 fd c c1 io modOk hf hr hl
  obtain ⟨s1', c1', post, hl', hpost, hnosend⟩ := sendBranch_log hb
  rw [hl] at hl'
  simp only [Option.some.injEq, Prod.mk.injEq] at hl'
  obtain ⟨rfl, rfl⟩ := hl'
  obtain ⟨d2, hd2, hsf2⟩ := sendLoop_sendsFrom hl
  have hdelta : delta = d2 ++ post := by
    have h1 : s.log ++ delta = s.log ++ (d2 ++ post) := by
      rw [← hlog, hpost, hd2, List.append_assoc]
    exact List.append_cancel_left h1
  have hsf : SendsFrom fd c.bytesSent delta c1.bytesSent := by
    rw [hdelta]
    exact sendsFrom_append hsf2 hnosend
  have hsent := sentBytes_of_sendsFrom hsf
  refine ⟨s', c', delta, hb, hh, hlog, hnorecv, hbuf, hsf, hsent, h16, hne, ?_⟩
  intro hreach hfull
  have hz : c.bytesSent = 0 := by
    rcases sendingStartsAtZero_of_reachable hreach fd c hf hr with h0 | hgt
    · exact h0
    · omega
  refine ⟨hz, by omega, ?_⟩
  rw [← hz, ← hfull]
  exact hsf

theorem C8_send_completion_witness :
    sendLoop 5 afterFullFrame sendingRecord twoPieceSend = some (afterSendLoop, sentRecord) ∧
    Reachable 3 (fun _ => 0) afterFullFrame ∧
    ∃ s' c' delta, sendBranch 5 afterFullFrame sendingRecord twoPieceSend true
        = some (s', c') ∧
      handleClient (fun _ => 0) afterFullFrame 5 twoPieceSend true = some s' ∧
      s'.log = afterFullFrame.log ++ delta ∧
      (∀ x off len ret, Sys.recv x off len ret ∉ delta) ∧
      c'.buffer = sendingRecord.buffer ∧
      SendsFrom 5 sendingRecord.bytesSent delta sentRecord.bytesSent ∧
      sentRecord.bytesSent = sendingRecord.bytesSent + sentBytes delta ∧
      (sentRecord.bytesSent = BUFFER_SIZE →
        s'.totalBytesProcessed = afterFullFrame.totalBytesProcessed + BUFFER_SIZE ∧
        c'.receivingData = true ∧ c'.bytesReceived = 0 ∧
        Sys.epollMod 5 .read true ∈ delta ∧
        (true = true →
          mapFind 5 s'.clients = some c' ∧ mapFind 5 s'.interest = some Interest.read)) ∧
      (sentRecord.bytesSent ≠ BUFFER_SIZE →
        c' = sentRecord ∧ c'.receivingData = false ∧
        s'.totalBytesProcessed = afterFullFrame.totalBytesProcessed ∧
        ∀ x i ok, Sys.epollMod x i ok ∉ delta) ∧
      (Reachable 3 (fun _ => 0) afterFullFrame → sentRecord.bytesSent = BUFFER_SIZE →
        sendingRecord.bytesSent = 0 ∧ sentBytes delta = BUFFER_SIZE ∧
        SendsFrom 5 0 delta BUFFER_SIZE) :=
  ⟨by decide, afterFullFrame_reachable,
   C8_send_completion 3 (fun _ => 0) afterFullFrame afterSendLoop 5 sendingRecord sentRecord
     twoPieceSend true (by decide) (by decide) (by decide)⟩

/-! ## Peer close in the middle of a frame -/

/-- A receive loop that is still running when the answers `pre` are used up has
only issued `recv` calls that did not end it, and goes on from a record that is
still short of a frame. -/
theorem recvLoop_running {fd : Int} {pre : List IoRet} {s : ServerState} {c : ClientData}
    (h : recvLoop fd s c pre = none) :
    ∃ (evs : List Sys) (c1 : ClientData), (∀ e ∈ evs, RecvStep fd e) ∧
      c1.bytesReceived < BUFFER_SIZE ∧
      ∀ tail, recvLoop fd s c (pre ++ tail) =
        recvLoop fd { s with log := s.log ++ evs } c1 tail := by
  induction pre generalizing s c with
  | nil =>
    simp only [recvLoop] at h
    split at h
    · rename_i hlt
      exact ⟨[], c, by simp, hlt, fun tail => by simp⟩
    · exact absurd h (by simp)
  | cons r pre ih =>
    simp only [recvLoop] at h
    split at h
    · rename_i hlt
      have hstep : ∀ ret : Int, ret ≠ 0 →
          RecvStep fd (.recv fd c.bytesReceived (BUFFER_SIZE - c.bytesReceived) ret) :=
        fun ret hr => ⟨rfl, hlt, by omega, hr⟩
      split at h
      · rename_i hpos
        obtain ⟨evs, c1, hevs, hc1, htail⟩ := ih h
        refine ⟨.recv fd c.bytesReceived (BUFFER_SIZE - c.bytesReceived) r.ret :: evs, c1,
          ?_, hc1, fun tail => ?_⟩
        · intro e he
          rcases List.mem_cons.1 he with rfl | he
          · exact hstep _ (by omega)
          · exact hevs e he
        · simp only [List.cons_append, recvLoop, List.append_eq, if_pos hlt, if_pos hpos]
          rw [htail]
          simp [ServerState.sys]
      · split at h
        · exact absurd h (by simp)
        · rename_i hnp hnz
          split at h
          · rename_i hm
            split at h
            · rename_i hag
              obtain ⟨evs, c1, hevs, hc1, htail⟩ := ih h
              refine ⟨.recv fd c.bytesReceived (BUFFER_SIZE - c.bytesReceived) r.ret :: evs,
                c1, ?_, hc1, fun tail => ?_⟩
              · intro e he
                rcases List.mem_cons.1 he with rfl | he
                · exact hstep _ hnz
                · exact hevs e he
              · simp only [List.cons_append, recvLoop, List.append_eq, if_pos hlt, if_neg hnp, if_neg hnz,
                  if_pos hm, if_pos hag]
                rw [htail]
                simp [ServerState.sys]
            · exact absurd h (by simp)
          · rename_i hm
            obtain ⟨evs, c1, hevs, hc1, htail⟩ := ih h
            refine ⟨.recv fd c.bytesReceived (BUFFER_SIZE - c.bytesReceived) r.ret :: evs,
              c1, ?_, hc1, fun tail => ?_⟩
            · intro e he
              rcases List.mem_cons.1 he with rfl | he
              · exact hstep _ hnz
              · exact hevs e he
            · simp only [List.cons_append, recvLoop, List.append_eq, if_pos hlt, if_neg hnp, if_neg hnz,
                if_neg hm]
              rw [htail]
              simp [ServerState.sys]
    · exact absurd h (by simp)

theorem count_close_recvSteps {fd : Int} {evs : List Sys} (h : ∀ e ∈ evs, RecvStep fd e)
    (x : Int) : evs.count (Sys.close x) = 0 :=
  List.count_eq_zero_of_not_mem (fun hm => by simpa [RecvStep] using h _ hm)

theorem count_del_recvSteps {fd : Int} {evs : List Sys} (h : ∀ e ∈ evs, RecvStep fd e)
    (x : Int) : evs.count (Sys.epollDel x) = 0 :=
  List.count_eq_zero_of_not_mem (fun hm => by simpa [RecvStep] using h _ hm)

/-- C9: for a connection in the Receiving phase whose receive loop is still
short of a frame when `recv` returns 0, the activation returns after exactly
one teardown: the calls of the activation are `recv` calls followed by one
`EPOLL_CTL_DEL` and one `close` of the handle, the record is absent from the
registry afterwards, `activeConnections` has decreased by exactly 1, every other
record is unchanged, and no epoll modify (phase flip) and no generator draw
(transform) happens in the activation. -/
theorem C9_peer_close_single_teardown (rng : Nat → Nat) (s : ServerState) (fd : Int)
    (c : ClientData) (pre : List IoRet) (r : IoRet) (rest : List IoRet) (modOk : Bool)
    (hf : mapFind fd s.clients = some c) (hr : c.receivingData = true)
    (hrun : recvLoop fd s c pre = none) (h0 : r.ret = 0) :
    ∃ (s' : ServerState) (evs : List Sys) (n : Nat),
      handleClient rng s fd (pre ++ r :: rest) modOk = some s' ∧
      n < BUFFER_SIZE ∧ (∀ e ∈ evs, RecvStep fd e) ∧
      s'.log = s.log ++ (evs ++ [.recv fd n (BUFFER_SIZE - n) 0, .epollDel fd, .close fd]) ∧
      (evs ++ [Sys.recv fd n (BUFFER_SIZE - n) 0, .epollDel fd, .close fd]).count
        (.epollDel fd) = 1 ∧
      (evs ++ [Sys.recv fd n (BUFFER_SIZE - n) 0, .epollDel fd, .close fd]).count
        (.close fd) = 1 ∧
      (∀ x i ok, Sys.epollMod x i ok ∉
        evs ++ [Sys.recv fd n (BUFFER_SIZE - n) 0, .epollDel fd, .close fd]) ∧
      mapFind fd s'.clients = none ∧
      (∀ j, j ≠ fd → mapFind j s'.clients = mapFind j s.clients) ∧
      s'.activeConnections = s.activeConnections - 1 ∧
      s'.totalConnections = s.totalConnections ∧
      s'.randCalls = s.randCalls := by
  obtain ⟨evs, c1, hevs, hc1, htail⟩ := recvLoop_running hrun
  have hne : c1.bytesReceived ≠ BUFFER_SIZE := Nat.ne_of_lt hc1
  have hloop : recvLoop fd s c (pre ++ r :: rest) =
      some ({ s with
              log := s.log ++ evs ++
                [.recv fd c1.bytesReceived (BUFFER_SIZE - c1.bytesReceived) 0,
                 .epollDel fd, .close fd]
              interest := mapErase fd s.interest
              totalBytesProcessed := s.totalBytesProcessed + c1.bytesReceived
              clients := mapErase fd s.clients
              activeConnections := s.activeConnections - 1 }, c1) := by
    rw [htail]
    simp [recvLoop, hc1, h0, ServerState.sys]
  have hh : handleClient rng s fd (pre ++ r :: rest) modOk =
      some { s with
             log := s.log ++ evs ++
               [.recv fd c1.bytesReceived (BUFFER_SIZE - c1.bytesReceived) 0,
                .epollDel fd, .close fd]
             interest := mapErase fd s.interest
             totalBytesProcessed := s.totalBytesProcessed + c1.bytesReceived
             clients := mapErase fd s.clients
             activeConnections := s.activeConnections - 1 } := by
    simp [handleClient, hf, hr, recvBranch, hloop, hne, mapStore_erase]
  refine ⟨_, evs, c1.bytesReceived, hh, hc1, hevs, by simp, ?_, ?_, ?_,
    mapFind_erase_self _ _, fun j hj => mapFind_erase_ne hj _, rfl, rfl, rfl⟩
  · rw [List.count_append, count_del_recvSteps hevs]
    simp [List.count_cons]
  · rw [List.count_append, count_close_recvSteps hevs]
    simp [List.count_cons]
  · intro x i ok hmem
    rcases List.mem_append.1 hmem with h | h
    · exact not_mod_mem_recvSteps hevs _ _ _ h
    · simp at h

theorem C9_peer_close_single_teardown_witness :
    recvLoop 5 oneClient ClientData.fresh [delivers (List.replicate 8 1)] = none ∧
    ∃ (s' : ServerState) (evs : List Sys) (n : Nat),
      handleClient (fun _ => 0) oneClient 5 ([delivers (List.replicate 8 1)] ++ peerClosed :: [])
        true = some s' ∧
      n < BUFFER_SIZE ∧ (∀ e ∈ evs, RecvStep 5 e) ∧
      s'.log = oneClient.log ++
        (evs ++ [.recv 5 n (BUFFER_SIZE - n) 0, .epollDel 5, .close 5]) ∧
      (evs ++ [Sys.recv 5 n (BUFFER_SIZE - n) 0, .epollDel 5, .close 5]).count
        (.epollDel 5) = 1 ∧
      (evs ++ [Sys.recv 5 n (BUFFER_SIZE - n) 0, .epollDel 5, .close 5]).count
        (.close 5) = 1 ∧
      (∀ x i ok, Sys.epollMod x i ok ∉
        evs ++ [Sys.recv 5 n (BUFFER_SIZE - n) 0, .epollDel 5, .close 5]) ∧
      mapFind 5 s'.clients = none ∧
      (∀ j, j ≠ 5 → mapFind j s'.clients = mapFind j oneClient.clients) ∧
      s'.activeConnections = oneClient.activeConnections - 1 ∧
      s'.totalConnections = oneClient.totalConnections ∧
      s'.randCalls = oneClient.randCalls :=
  ⟨by decide,
   C9_peer_close_single_teardown (fun _ => 0) oneClient 5 ClientData.fresh
     [delivers (List.replicate 8 1)] peerClosed [] true (by decide) (by decide) (by decide)
     (by decide)⟩

/-! ## The listener handler -/

/-- C10 (as stated, refuted): with two connections pending when the listener
event is dispatched, the handler returns after a single `accept`: handle 5 is
in the registry, handle 6 is not, and the second connection is still pending. -/
theorem C10_second_pending_not_installed :
    (handleAccept ServerState.init twoPending).1.log
      = [.accept 5, .epollAdd 5 .read true] ∧
    mapFind 5 (handleAccept ServerState.init twoPending).1.clients = some ClientData.fresh ∧
    mapFind 6 (handleAccept ServerState.init twoPending).1.clients = none ∧
    (handleAccept ServerState.init twoPending).2
      = [{ fd := 6, nonBlocking := true, noDelay := true, added := true }] := by
  refine ⟨by decide, by decide, by decide, by decide⟩

/-- C10 (amended): one dispatch of the listener event calls `accept` exactly
once.  When that call returns a connection on which non-blocking mode,
`TCP_NODELAY` and the epoll registration succeed, that one connection is
installed: registered with read interest, with a fresh record
(`receivingData = true`, `bytesReceived = 0`) in the registry, both connection
counters incremented; every other registry entry is unchanged and the remaining
pending connections are still pending when the handler returns. -/
theorem C10_accept_once (s : ServerState) (a : AcceptIn) (rest : List AcceptIn)
    (hfd : a.fd ≠ -1) (hnb : a.nonBlocking = true) (hnd : a.noDelay = true)
    (hadd : a.added = true) :
    (∀ pending : List AcceptIn, ∃ tail : List Sys,
      (handleAccept s pending).1.log = s.log ++ .accept (acceptResult pending).fd :: tail ∧
      (∀ x, Sys.accept x ∉ tail) ∧ (handleAccept s pending).2 = pending.tail) ∧
    handleAccept s (a :: rest) =
      ({ s with
         log := s.log ++ [.accept a.fd, .epollAdd a.fd .read true]
         interest := mapAssign a.fd .read s.interest
         clients := mapAssign a.fd ClientData.fresh s.clients
         totalConnections := s.totalConnections + 1
         activeConnections := s.activeConnections + 1 }, rest) ∧
    mapFind a.fd (handleAccept s (a :: rest)).1.clients
      = some { buffer := List.replicate BUFFER_SIZE 0, bytesReceived := 0, bytesSent := 0,
               receivingData := true } ∧
    mapFind a.fd (handleAccept s (a :: rest)).1.interest = some Interest.read ∧
    (∀ j, j ≠ a.fd →
      mapFind j (handleAccept s (a :: rest)).1.clients = mapFind j s.clients) := by
  have hs : handleAccept s (a :: rest) =
      ({ s with
         log := s.log ++ [.accept a.fd, .epollAdd a.fd .read true]
         interest := mapAssign a.fd .read s.interest
         clients := mapAssign a.fd ClientData.fresh s.clients
         totalConnections := s.totalConnections + 1
         activeConnections := s.activeConnections + 1 }, rest) := by
    simp [handleAccept, acceptResult, hfd, hnb, hnd, hadd, ServerState.sys]
  refine ⟨?_, hs, ?_, ?_, ?_⟩
  · intro pending
    obtain ⟨h2, h1⟩ := handleAccept_cases s pending
    rcases h1 with h | h | h | ⟨_, _, _, _, h⟩
    · exact ⟨[], by rw [h], by simp, h2⟩
    · exact ⟨[.close (acceptResult pending).fd], by rw [h], by simp, h2⟩
    · exact ⟨[.epollAdd (acceptResult pending).fd .read false,
        .close (acceptResult pending).fd], by rw [h], by simp, h2⟩
    · exact ⟨[.epollAdd (acceptResult pending).fd .read true], by rw [h], by simp, h2⟩
  · rw [hs]
    exact mapFind_assign_self _ _ _
  · rw [hs]
    exact mapFind_assign_self _ _ _
  · intro j hj
    rw [hs]
    exact mapFind_assign_ne hj _ _

theorem C10_accept_once_witness :
    handleAccept ServerState.init twoPending =
      ({ ServerState.init with
         log := ServerState.init.log ++ [.accept 5, .epollAdd 5 .read true]
         interest := mapAssign 5 .read ServerState.init.interest
         clients := mapAssign 5 ClientData.fresh ServerState.init.clients
         totalConnections := ServerState.init.totalConnections + 1
         activeConnections := ServerState.init.activeConnections + 1 },
       [{ fd := 6, nonBlocking := true, noDelay := true, added := true }]) :=
  (C10_accept_once ServerState.init
    { fd := 5, nonBlocking := true, noDelay := true, added := true }
    [{ fd := 6, nonBlocking := true, noDelay := true, added := true }]
    (by decide) (by decide) (by decide) (by decide)).2.1

/-! ## Active connections and the size of the registry -/

section MapSize
variable {α : Type}

theorem mapFind_eq_none_iff (k : Int) (l : List (Int × α)) :
    mapFind k l = none ↔ k ∉ l.map Prod.fst := by
  induction l with
  | nil => simp [mapFind]
  | cons kv t ih =>
    obtain ⟨k', v⟩ := kv
    by_cases hk : k' = k
    · subst hk
      simp [mapFind]
    · have hk' : ¬ k = k' := fun h => hk h.symm
      simp [mapFind, hk, hk', ih]

theorem keys_mapStore (k : Int) (v : α) (l : List (Int × α)) :
    (mapStore k v l).map Prod.fst = l.map Prod.fst := by
  induction l with
  | nil => rfl
  | cons kv t ih =>
    obtain ⟨k', v'⟩ := kv
    by_cases hk : k' = k <;> simp [mapStore, hk, ih]

theorem length_mapStore (k : Int) (v : α) (l : List (Int × α)) :
    (mapStore k v l).length = l.length := by
  have h := congrArg List.length (keys_mapStore k v l)
  simpa using h

theorem keys_mapErase (k : Int) (l : List (Int × α)) :
    (mapErase k l).map Prod.fst = (l.map Prod.fst).filter (fun j => decide (j ≠ k)) := by
  induction l with
  | nil => rfl
  | cons kv t ih =>
    obtain ⟨k', v'⟩ := kv
    by_cases hk : k' = k <;> simp [mapErase, hk, ih]

theorem nodup_keys_mapErase (k : Int) {l : List (Int × α)} (h : (l.map Prod.fst).Nodup) :
    ((mapErase k l).map Prod.fst).Nodup := by
  rw [keys_mapErase]
  exact h.filter _

theorem length_mapErase {k : Int} {v : α} {l : List (Int × α)}
    (hn : (l.map Prod.fst).Nodup) (hf : mapFind k l = some v) :
    (mapErase k l).length + 1 = l.length := by
  induction l with
  | nil => simp [mapFind] at hf
  | cons kv t ih =>
    obtain ⟨k', v'⟩ := kv
    simp only [List.map_cons, List.nodup_cons] at hn
    by_cases hk : k' = k
    · subst hk
      have hnone : mapFind k' t = none := (mapFind_eq_none_iff k' t).2 hn.1
      have herase : mapErase k' t = t := by
        clear ih hf
        induction t with
        | nil => rfl
        | cons kv2 t2 ih2 =>
          obtain ⟨k2, v2⟩ := kv2
          have hk2 : ¬ k2 = k' := by
            intro h
            subst h
            simp [mapFind] at hnone
          simp only [mapFind, hk2, if_false] at hnone
          simp only [List.map_cons, List.mem_cons, not_or, List.nodup_cons] at hn
          simp [mapErase, hk2, ih2 ⟨hn.1.2, hn.2.2⟩ hnone]
      simp [mapErase, herase]
    · simp only [mapFind, hk, if_false] at hf
      simp [mapErase, hk, ih hn.2 hf]

theorem keys_mapAssign_perm {k : Int} (v : α) {l : List (Int × α)}
    (hf : mapFind k l = none) :
    ((mapAssign k v l).map Prod.fst).Perm (k :: l.map Prod.fst) := by
  induction l with
  | nil => simp [mapAssign]
  | cons kv t ih =>
    obtain ⟨k', v'⟩ := kv
    have hk : ¬ k' = k := by
      intro h
      subst h
      simp [mapFind] at hf
    simp only [mapFind, hk, if_false] at hf
    by_cases h1 : k < k'
    · simp [mapAssign, h1]
    · have h2 : ¬ k = k' := fun h => hk h.symm
      simp only [mapAssign, h1, h2, if_false, List.map_cons]
      exact ((ih hf).cons k').trans (List.Perm.swap k k' _)

theorem nodup_keys_mapAssign {k : Int} (v : α) {l : List (Int × α)}
    (hn : (l.map Prod.fst).Nodup) (hf : mapFind k l = none) :
    ((mapAssign k v l).map Prod.fst).Nodup :=
  (keys_mapAssign_perm v hf).nodup_iff.2
    (List.nodup_cons.2 ⟨(mapFind_eq_none_iff k l).1 hf, hn⟩)

theorem length_mapAssign {k : Int} (v : α) {l : List (Int × α)}
    (hf : mapFind k l = none) : (mapAssign k v l).length = l.length + 1 := by
  have h := (keys_mapAssign_perm v hf).length_eq
  simpa using h

end MapSize

theorem activeCountsRegistry_step {serverSocket : Int} {rng : Nat → Nat} {s s' : ServerState}
    {ev : Event} (hd : dispatch serverSocket rng s ev = some s')
    (hfresh : ev.fd = serverSocket → mapFind (acceptResult ev.pending).fd s.clients = none)
    (hi : ActiveCountsRegistry s) : ActiveCountsRegistry s' := by
  obtain ⟨hn, hlen, hle⟩ := hi
  unfold dispatch at hd
  split at hd
  · rename_i hfd
    have hnone := hfresh hfd
    simp only [Option.some.injEq] at hd
    subst hd
    rcases (handleAccept_cases s ev.pending).2 with h | h | h | ⟨_, _, _, _, h⟩ <;> rw [h]
    · exact ⟨hn, hlen, hle⟩
    · exact ⟨hn, hlen, hle⟩
    · exact ⟨hn, hlen, hle⟩
    · refine ⟨nodup_keys_mapAssign _ hn hnone, ?_, ?_⟩
      · simp only [length_mapAssign _ hnone, hlen]
        push_cast
        ring
      · simp only
        omega
  · have hE : ∀ c, mapFind ev.fd s.clients = some c →
        ((mapErase ev.fd s.clients).map Prod.fst).Nodup ∧
        s.activeConnections - 1 = ((mapErase ev.fd s.clients).length : Int) ∧
        s.activeConnections - 1 ≤ s.totalConnections := by
      intro c hf
      have h1 := length_mapErase hn hf
      refine ⟨nodup_keys_mapErase _ hn, ?_, by omega⟩
      rw [hlen, ← h1]
      push_cast
      ring
    have hS : ∀ v, ((mapStore ev.fd v s.clients).map Prod.fst).Nodup ∧
        s.activeConnections = ((mapStore ev.fd v s.clients).length : Int) ∧
        s.activeConnections ≤ s.totalConnections := by
      intro v
      rw [keys_mapStore, length_mapStore]
      exact ⟨hn, hlen, hle⟩
    rcases handleClient_cases hd with ⟨_, rfl⟩ | ⟨c, c', hf, _, hb⟩ | ⟨c, c', hf, _, hb⟩
    · exact ⟨hn, hlen, hle⟩
    · obtain ⟨evs, c1, _, _, _, _, _, _, hc⟩ := recvBranch_cases hb
      rcases hc with ⟨_, _, rfl⟩ | ⟨_, _, _, rfl⟩ | ⟨_, _, _, rfl⟩ | ⟨_, _, rfl⟩ | ⟨_, _, rfl⟩
      · exact hS _
      · exact hS _
      · exact hE c hf
      · exact hE c hf
      · exact hE c hf
    · obtain ⟨evs, c1, _, _, _, _, _, _, hc⟩ := sendBranch_cases hb
      rcases hc with ⟨_, _, rfl⟩ | ⟨_, _, _, rfl⟩ | ⟨_, _, _, rfl⟩ | ⟨_, _, rfl⟩
      · exact hS _
      · exact hS _
      · exact hE c hf
      · exact hE c hf

theorem reachable_of_reachableFresh {serverSocket : Int} {rng : Nat → Nat} {s : ServerState}
    (h : ReachableFresh serverSocket rng s) : Reachable serverSocket rng s := by
  induction h with
  | init => exact Reachable.init
  | step ev _ _ hd ih => exact Reachable.step ev ih hd

theorem afterFullFrame_reachableFresh : ReachableFresh 3 (fun _ => 0) afterFullFrame :=
  ReachableFresh.step fullFrame
    (@ReachableFresh.step 3 _ ServerState.init oneClient acceptFive ReachableFresh.init
      (fun _ => by decide) rfl)
    (fun h => absurd h (by decide)) (by decide)

/-- C12: in every state reachable by the server loop when `accept` only returns
handles that are not keys of the registry, `activeConnections` equals the
number of records in the registry; hence it is at least 0, at most
`totalConnections`, and 0 exactly when the registry is empty. -/
theorem C12_active_equals_registry_size (serverSocket : Int) (rng : Nat → Nat)
    (s : ServerState) (hs : ReachableFresh serverSocket rng s) :
    s.activeConnections = s.clients.length ∧ 0 ≤ s.activeConnections ∧
    s.activeConnections ≤ s.totalConnections ∧
    (s.activeConnections = 0 ↔ s.clients = []) := by
  have key : ActiveCountsRegistry s := by
    induction hs with
    | init => exact ⟨by simp [ServerState.init], rfl, by simp [ServerState.init]⟩
    | step ev _ hfresh hd ih => exact activeCountsRegistry_step hd hfresh ih
  obtain ⟨_, hlen, hle⟩ := key
  refine ⟨hlen, by omega, hle, ?_⟩
  rw [hlen]
  constructor
  · intro h
    exact List.length_eq_zero.1 (by exact_mod_cast h)
  · intro h
    rw [h]
    rfl

theorem C12_active_equals_registry_size_witness :
    afterFullFrame.activeConnections = afterFullFrame.clients.length ∧
    0 ≤ afterFullFrame.activeConnections ∧
    afterFullFrame.activeConnections ≤ afterFullFrame.totalConnections ∧
    (afterFullFrame.activeConnections = 0 ↔ afterFullFrame.clients = []) :=
  C12_active_equals_registry_size 3 (fun _ => 0) afterFullFrame afterFullFrame_reachableFresh

/-! ## The client's loops -/

theorem sentBytes_recvSteps {fd : Int} {evs : List Sys} (h : ∀ e ∈ evs, RecvStep fd e) :
    sentBytes evs = 0 := by
  induction evs with
  | nil => rfl
  | cons e t ih =>
    have he := h e (List.mem_cons_self _ _)
    have ht := ih (fun x hx => h x (List.mem_cons_of_mem _ hx))
    cases e <;> simp_all [RecvStep, sentBytes, sentWeight]

theorem clientSendLoop_cases {fd : Int} {io io2 : List IoRet} {st st2 : ClientState}
    {t : Nat} {r : Option Nat} (h : clientSendLoop fd st t io = some (st2, r, io2)) :
    st2.buffer = st.buffer ∧ st2.sendCount = st.sendCount ∧ st2.recvCount = st.recvCount ∧
    st2.genCalls = st.genCalls ∧
    ∃ evs : List Sys, (∀ e ∈ evs, SendStep fd e) ∧
      ((∃ t', r = some t' ∧ BUFFER_SIZE ≤ t' ∧ t' = t + sentBytes evs ∧
          st2.log = st.log ++ evs ∧
          ((∀ e ∈ evs, WellBehaved e) → t ≤ BUFFER_SIZE → t' ≤ BUFFER_SIZE)) ∨
       (r = none ∧ ∃ off, off < BUFFER_SIZE ∧
          st2.log = st.log ++ evs ++ [.send fd off (BUFFER_SIZE - off) (-1), .close fd])) := by
  induction io generalizing st t with
  | nil =>
    simp only [clientSendLoop] at h
    split at h
    · exact absurd h (by simp)
    · rename_i hlt
      simp only [Option.some.injEq, Prod.mk.injEq] at h
      obtain ⟨rfl, rfl, _⟩ := h
      exact ⟨rfl, rfl, rfl, rfl, [], by simp,
        Or.inl ⟨t, rfl, Nat.le_of_not_lt hlt, by simp [sentBytes_nil], by simp, fun _ h => h⟩⟩
  | cons a rest ih =>
    simp only [clientSendLoop] at h
    split at h
    · rename_i hlt
      have hmem : ∀ evs : List Sys, (∀ e ∈ evs, SendStep fd e) →
          ∀ e ∈ Sys.send fd t (BUFFER_SIZE - t) a.ret :: evs, SendStep fd e := by
        intro evs hevs e he
        rcases List.mem_cons.1 he with rfl | he
        · exact ⟨rfl, hlt, by omega⟩
        · exact hevs e he
      have hrec : ∀ t1 : Nat, t1 = t + a.ret.toNat →
          ((0 < a.ret ∧ a.ret ≤ ((BUFFER_SIZE - t : Nat) : Int)) ∨ a.ret ≤ 0 →
            t ≤ BUFFER_SIZE → t1 ≤ BUFFER_SIZE) →
          clientSendLoop fd
            { st with log := st.log ++ [.send fd t (BUFFER_SIZE - t) a.ret] } t1 rest
              = some (st2, r, io2) →
          st2.buffer = st.buffer ∧ st2.sendCount = st.sendCount ∧
          st2.recvCount = st.recvCount ∧ st2.genCalls = st.genCalls ∧
          ∃ evs : List Sys, (∀ e ∈ evs, SendStep fd e) ∧
            ((∃ t', r = some t' ∧ BUFFER_SIZE ≤ t' ∧ t' = t + sentBytes evs ∧
                st2.log = st.log ++ evs ∧
                ((∀ e ∈ evs, WellBehaved e) → t ≤ BUFFER_SIZE → t' ≤ BUFFER_SIZE)) ∨
             (r = none ∧ ∃ off, off < BUFFER_SIZE ∧
                st2.log = st.log ++ evs ++
                  [.send fd off (BUFFER_SIZE - off) (-1), .close fd])) := by
        intro t1 ht1 hbound h'
        obtain ⟨h1, h2, h3, h4, evs, hevs, hc⟩ := ih h'
        refine ⟨h1, h2, h3, h4, .send fd t (BUFFER_SIZE - t) a.ret :: evs, hmem evs hevs, ?_⟩
        rcases hc with ⟨t', hr, hge, ht', hlog, hwb⟩ | ⟨hr, off, hoff, hlog⟩
        · refine Or.inl ⟨t', hr, hge, ?_, ?_, ?_⟩
          · rw [ht', ht1, sentBytes_cons]
            simp only [sentWeight]
            omega
          · rw [hlog]
            simp
          · intro hw hb
            have h0 := hw _ (List.mem_cons_self _ _)
            simp only [WellBehaved] at h0
            refine hwb (fun e he => hw e (List.mem_cons_of_mem _ he)) (hbound ?_ hb)
            omega
        · refine Or.inr ⟨hr, off, hoff, ?_⟩
          rw [hlog]
          simp
      split at h
      · exact hrec _ rfl (fun hw hb => by omega) h
      · rename_i hnp
        have hz : a.ret.toNat = 0 := by omega
        split at h
        · rename_i hm
          split at h
          · exact hrec t (by omega) (fun _ hb => hb) h
          · simp only [Option.some.injEq, Prod.mk.injEq] at h
            obtain ⟨rfl, rfl, _⟩ := h
            exact ⟨rfl, rfl, rfl, rfl, [], by simp,
              Or.inr ⟨rfl, t, hlt, by simp [hm]⟩⟩
        · exact hrec t (by omega) (fun _ hb => hb) h
    · rename_i hlt
      simp only [Option.some.injEq, Prod.mk.injEq] at h
      obtain ⟨rfl, rfl, _⟩ := h
      exact ⟨rfl, rfl, rfl, rfl, [], by simp,
        Or.inl ⟨t, rfl, Nat.le_of_not_lt hlt, by simp [sentBytes_nil], by simp, fun _ h => h⟩⟩

theorem clientRecvLoop_cases {fd : Int} {io io2 : List IoRet} {st st2 : ClientState}
    {t : Nat} {r : Option Nat} (h : clientRecvLoop fd st t io = some (st2, r, io2)) :
    st2.sendCount = st.sendCount ∧ st2.recvCount = st.recvCount ∧
    st2.genCalls = st.genCalls ∧ st2.buffer.length = st.buffer.length ∧
    ∃ evs : List Sys, (∀ e ∈ evs, RecvStep fd e) ∧
      ((∃ t', r = some t' ∧ BUFFER_SIZE ≤ t' ∧ st2.log = st.log ++ evs) ∨
       (r = none ∧ ∃ (off : Nat) (ret : Int), off < BUFFER_SIZE ∧ (ret = -1 ∨ ret = 0) ∧
          st2.log = st.log ++ evs ++ [.recv fd off (BUFFER_SIZE - off) ret, .close fd])) := by
  induction io generalizing st t with
  | nil =>
    simp only [clientRecvLoop] at h
    split at h
    · exact absurd h (by simp)
    · rename_i hlt
      simp only [Option.some.injEq, Prod.mk.injEq] at h
      obtain ⟨rfl, rfl, _⟩ := h
      exact ⟨rfl, rfl, rfl, rfl, [], by simp,
        Or.inl ⟨t, rfl, Nat.le_of_not_lt hlt, by simp⟩⟩
  | cons a rest ih =>
    simp only [clientRecvLoop] at h
    split at h
    · rename_i hlt
      have hmem : a.ret ≠ 0 → ∀ evs : List Sys, (∀ e ∈ evs, RecvStep fd e) →
          ∀ e ∈ Sys.recv fd t (BUFFER_SIZE - t) a.ret :: evs, RecvStep fd e := by
        intro hnz evs hevs e he
        rcases List.mem_cons.1 he with rfl | he
        · exact ⟨rfl, hlt, by omega, hnz⟩
        · exact hevs e he
      have hrec : a.ret ≠ 0 → ∀ (t1 : Nat) (buf : List Nat), buf.length = st.buffer.length →
          clientRecvLoop fd
            { st with log := st.log ++ [.recv fd t (BUFFER_SIZE - t) a.ret], buffer := buf }
            t1 rest = some (st2, r, io2) →
          st2.sendCount = st.sendCount ∧ st2.recvCount = st.recvCount ∧
          st2.genCalls = st.genCalls ∧ st2.buffer.length = st.buffer.length ∧
          ∃ evs : List Sys, (∀ e ∈ evs, RecvStep fd e) ∧
            ((∃ t', r = some t' ∧ BUFFER_SIZE ≤ t' ∧ st2.log = st.log ++ evs) ∨
             (r = none ∧ ∃ (off : Nat) (ret : Int), off < BUFFER_SIZE ∧
                (ret = -1 ∨ ret = 0) ∧
                st2.log = st.log ++ evs ++
                  [.recv fd off (BUFFER_SIZE - off) ret, .close fd])) := by
        intro hnz t1 buf hbuf h'
        obtain ⟨h1, h2, h3, h4, evs, hevs, hc⟩ := ih h'
        refine ⟨h1, h2, h3, h4.trans hbuf,
          .recv fd t (BUFFER_SIZE - t) a.ret :: evs, hmem hnz evs hevs, ?_⟩
        rcases hc with ⟨t', hr, hge, hlog⟩ | ⟨hr, off, ret, hoff, hret, hlog⟩
        · exact Or.inl ⟨t', hr, hge, by rw [hlog]; simp⟩
        · exact Or.inr ⟨hr, off, ret, hoff, hret, by rw [hlog]; simp⟩
      split at h
      · rename_i hpos
        exact hrec (by omega) _ _ (length_writeAt _ _ _) h
      · split at h
        · rename_i hz
          simp only [Option.some.injEq, Prod.mk.injEq] at h
          obtain ⟨rfl, rfl, _⟩ := h
          exact ⟨rfl, rfl, rfl, rfl, [], by simp,
            Or.inr ⟨rfl, t, 0, hlt, Or.inr rfl, by simp [hz]⟩⟩
        · rename_i hnz
          split at h
          · rename_i hm
            split at h
            · exact hrec hnz t st.buffer rfl h
            · simp only [Option.some.injEq, Prod.mk.injEq] at h
              obtain ⟨rfl, rfl, _⟩ := h
              exact ⟨rfl, rfl, rfl, rfl, [], by simp,
                Or.inr ⟨rfl, t, -1, hlt, Or.inl rfl, by simp [hm]⟩⟩
          · exact hrec hnz t st.buffer rfl h
    · rename_i hlt
      simp only [Option.some.injEq, Prod.mk.injEq] at h
      obtain ⟨rfl, rfl, _⟩ := h
      exact ⟨rfl, rfl, rfl, rfl, [], by simp,
        Or.inl ⟨t, rfl, Nat.le_of_not_lt hlt, by simp⟩⟩

theorem not_close_mem_sendSteps {fd : Int} {evs : List Sys} (h : ∀ e ∈ evs, SendStep fd e)
    (x : Int) : Sys.close x ∉ evs :=
  fun hm => by simpa [SendStep] using h _ hm

theorem not_close_mem_recvSteps {fd : Int} {evs : List Sys} (h : ∀ e ∈ evs, RecvStep fd e)
    (x : Int) : Sys.close x ∉ evs :=
  fun hm => by simpa [RecvStep] using h _ hm

theorem clientFrame_cases {fd : Int} {gen : Nat → Nat} {io io' : List IoRet}
    {st st' : ClientState} {moved : Bool}
    (h : clientFrame fd gen st io = some (st', moved, io')) :
    (moved = true ∧ st'.sendCount = st.sendCount + 1 ∧ st'.recvCount = st.recvCount + 1 ∧
      ∃ delta : List Sys, st'.log = st.log ++ delta ∧ (∀ x, Sys.close x ∉ delta) ∧
        BUFFER_SIZE ≤ sentBytes delta ∧
        ((∀ e ∈ delta, WellBehaved e) → sentBytes delta = BUFFER_SIZE)) ∨
    (moved = false ∧ st'.recvCount = st.recvCount ∧
      (st'.sendCount = st.sendCount ∨ st'.sendCount = st.sendCount + 1) ∧
      ∃ (pre : List Sys) (e : Sys), st'.log = st.log ++ pre ++ [e, .close fd] ∧
        FatalTransfer fd e ∧ ∀ x, Sys.close x ∉ pre) := by
  unfold clientFrame at h
  simp only at h
  cases hs : clientSendLoop fd
      { st with buffer := fillBuffer gen st.genCalls st.buffer
                genCalls := st.genCalls + BUFFER_SIZE } 0 io with
  | none => rw [hs] at h; exact absurd h (by simp)
  | some p =>
    obtain ⟨st2, r, io2⟩ := p
    rw [hs] at h
    obtain ⟨_, hsc, hrc, _, evs, hevs, hc⟩ := clientSendLoop_cases hs
    simp only at hsc hrc
    rcases hc with ⟨t', hr, hge, ht', hlog, hwb⟩ | ⟨hr, off, hoff, hlog⟩
    · subst hr
      simp only at h hlog
      cases hrl : clientRecvLoop fd { st2 with sendCount := st2.sendCount + 1 } 0 io2 with
      | none => rw [hrl] at h; exact absurd h (by simp)
      | some q =>
        obtain ⟨st3, r3, io3⟩ := q
        rw [hrl] at h
        obtain ⟨hsc3, hrc3, _, _, evr, hevr, hc3⟩ := clientRecvLoop_cases hrl
        simp only at hsc3 hrc3
        rcases hc3 with ⟨t3, hr3, _, hlog3⟩ | ⟨hr3, off3, ret3, hoff3, hret3, hlog3⟩
        · subst hr3
          simp only [Option.some.injEq, Prod.mk.injEq] at h
          obtain ⟨rfl, rfl, _⟩ := h
          simp only at hlog3
          refine Or.inl ⟨rfl, by simp only [hsc3, hsc], by simp only [hrc3, hrc],
            evs ++ evr, by simp only [hlog3, hlog, List.append_assoc], ?_, ?_, ?_⟩
          · intro x hx
            rcases List.mem_append.1 hx with hx | hx
            · exact not_close_mem_sendSteps hevs x hx
            · exact not_close_mem_recvSteps hevr x hx
          · rw [sentBytes_append, sentBytes_recvSteps hevr]
            omega
          · intro hw
            rw [sentBytes_append, sentBytes_recvSteps hevr]
            have := hwb (fun e he => hw e (List.mem_append_left _ he)) (Nat.zero_le _)
            omega
        · subst hr3
          simp only [Option.some.injEq, Prod.mk.injEq] at h
          obtain ⟨rfl, rfl, _⟩ := h
          simp only at hlog3
          refine Or.inr ⟨rfl, by simp only [hrc3, hrc], Or.inr (by simp only [hsc3, hsc]),
            evs ++ evr, .recv fd off3 (BUFFER_SIZE - off3) ret3,
            by simp only [hlog3, hlog, List.append_assoc], ⟨rfl, hret3⟩, ?_⟩
          intro x hx
          rcases List.mem_append.1 hx with hx | hx
          · exact not_close_mem_sendSteps hevs x hx
          · exact not_close_mem_recvSteps hevr x hx
    · subst hr
      simp only [Option.some.injEq, Prod.mk.injEq] at h
      obtain ⟨rfl, rfl, _⟩ := h
      simp only at hlog
      exact Or.inr ⟨rfl, hrc, Or.inl hsc, evs, .send fd off (BUFFER_SIZE - off) (-1),
        hlog, ⟨rfl, rfl⟩, not_close_mem_sendSteps hevs⟩

theorem clientLoop_cases {fd : Int} {gen : Nat → Nat} {clock : List Bool} {io : List IoRet}
    {st st' : ClientState} {code : Int}
    (h : clientLoop fd gen clock st io = some (st', code))
    (heq : st.sendCount = st.recvCount) :
    (code = 0 ∨ code = 1) ∧
    (code = 0 → st'.sendCount = st'.recvCount ∧
      ∃ delta : List Sys, st'.log = st.log ++ delta ++ [.close fd] ∧
        ((∀ e ∈ delta, WellBehaved e) →
          (sentBytes delta : Int) = BUFFER_SIZE * (st'.sendCount - st.sendCount))) ∧
    (code = 1 → ∃ (pre : List Sys) (e : Sys),
      st'.log = st.log ++ pre ++ [e, .close fd] ∧ FatalTransfer fd e) := by
  induction clock generalizing st io with
  | nil => exact absurd h (by simp [clientLoop])
  | cons b clock ih =>
    cases b with
    | false =>
      simp only [clientLoop, Option.some.injEq, Prod.mk.injEq] at h
      obtain ⟨rfl, rfl⟩ := h
      refine ⟨Or.inl rfl, fun _ => ⟨heq, [], by simp, fun _ => by simp [sentBytes_nil]⟩,
        fun h => absurd h (by decide)⟩
    | true =>
      simp only [clientLoop] at h
      cases hf : clientFrame fd gen st io with
      | none => rw [hf] at h; exact absurd h (by simp)
      | some p =>
        obtain ⟨st1, moved, io1⟩ := p
        rw [hf] at h
        rcases clientFrame_cases hf with
          ⟨rfl, hsc, hrc, d1, hlog1, _, _, hw1⟩ | ⟨rfl, _, _, pre, e, hlog1, hfat, _⟩
        · simp only at h
          obtain ⟨hcode, h0, h1⟩ := ih h (by rw [hsc, hrc, heq])
          refine ⟨hcode, fun hc => ?_, fun hc => ?_⟩
          · obtain ⟨heq', delta, hlog, hsent⟩ := h0 hc
            refine ⟨heq', d1 ++ delta, by rw [hlog, hlog1]; simp, fun hw => ?_⟩
            have e1 := hw1 (fun e he => hw e (List.mem_append_left _ he))
            have e2 := hsent (fun e he => hw e (List.mem_append_right _ he))
            rw [sentBytes_append, e1]
            push_cast
            rw [e2, hsc]
            ring
          · obtain ⟨pre, e, hlog, hfat⟩ := h1 hc
            exact ⟨d1 ++ pre, e, by rw [hlog, hlog1]; simp, hfat⟩
        · simp only [Option.some.injEq, Prod.mk.injEq] at h
          obtain ⟨rfl, rfl⟩ := h
          exact ⟨Or.inr rfl, fun h => absurd h (by decide), fun _ => ⟨pre, e, hlog1, hfat⟩⟩

/-- C11: a run of the client's main loop that ends does so with exit code 0 or
1.  With exit code 0, `sendCount` equals `recvCount`, whatever the `send` and
`recv` calls returned.  Every pass through the loop body that ends either moves
on to the next pass, with both counters incremented, no `close`, and the frame
fully sent (at least `BUFFER_SIZE` bytes handed to `send`, exactly `BUFFER_SIZE`
when no `send` returns more than it was asked for), or leaves `main` with exit
code 1 right after a `send` error, a `recv` error or a `recv` returning 0
followed by `close` of the socket. -/
theorem C11_client_counts_and_frames (fd : Int) (gen : Nat → Nat) (clock : List Bool)
    (io : List IoRet) (buffer : List Nat) (st' : ClientState) (code : Int)
    (h : clientLoop fd gen clock (ClientState.init buffer) io = some (st', code)) :
    (code = 0 ∨ code = 1) ∧
    (code = 0 → st'.sendCount = st'.recvCount ∧
      ∃ delta : List Sys, st'.log = delta ++ [.close fd] ∧
        ((∀ e ∈ delta, WellBehaved e) →
          (sentBytes delta : Int) = BUFFER_SIZE * st'.sendCount)) ∧
    (code = 1 → ∃ (pre : List Sys) (e : Sys),
      st'.log = pre ++ [e, .close fd] ∧ FatalTransfer fd e) ∧
    (∀ (st st1 : ClientState) (io1 io2 : List IoRet) (moved : Bool) (later : List Bool),
      clientFrame fd gen st io1 = some (st1, moved, io2) →
      (moved = true ∧
        clientLoop fd gen (true :: later) st io1 = clientLoop fd gen later st1 io2 ∧
        st1.sendCount = st.sendCount + 1 ∧ st1.recvCount = st.recvCount + 1 ∧
        ∃ delta : List Sys, st1.log = st.log ++ delta ∧ (∀ x, Sys.close x ∉ delta) ∧
          BUFFER_SIZE ≤ sentBytes delta ∧
          ((∀ e ∈ delta, WellBehaved e) → sentBytes delta = BUFFER_SIZE)) ∨
      (moved = false ∧
        clientLoop fd gen (true :: later) st io1 = some (st1, 1) ∧
        ∃ (pre : List Sys) (e : Sys), st1.log = st.log ++ pre ++ [e, .close fd] ∧
          FatalTransfer fd e ∧ ∀ x, Sys.close x ∉ pre)) := by
  obtain ⟨hcode, h0, h1⟩ := clientLoop_cases h rfl
  refine ⟨hcode, fun hc => ?_, fun hc => ?_, ?_⟩
  · obtain ⟨heq, delta, hlog, hsent⟩ := h0 hc
    refine ⟨heq, delta, by simpa [ClientState.init] using hlog, fun hw => ?_⟩
    simpa [ClientState.init] using hsent hw
  · obtain ⟨pre, e, hlog, hfat⟩ := h1 hc
    exact ⟨pre, e, by simpa [ClientState.init] using hlog, hfat⟩
  · intro st st1 io1 io2 moved later hf
    rcases clientFrame_cases hf with ⟨rfl, hsc, hrc, hd⟩ | ⟨rfl, _, _, hd⟩
    · exact Or.inl ⟨rfl, by simp [clientLoop, hf], hsc, hrc, hd⟩
    · exact Or.inr ⟨rfl, by simp [clientLoop, hf], hd⟩

theorem C11_client_counts_and_frames_witness :
    clientLoop 9 (fun n => n) [true, true, false] (ClientState.init (List.replicate 16 0))
      twoFrameAnswers = some (afterTwoFrames, 0) ∧
    afterTwoFrames.sendCount = afterTwoFrames.recvCount :=
  ⟨by decide,
   ((C11_client_counts_and_frames 9 (fun n => n) [true, true, false] twoFrameAnswers
      (List.replicate 16 0) afterTwoFrames 0 (by decide)).2.1 rfl).1⟩

end Softirq
